import Mathlib

/-!
Verification development for the Samdb HDC encoding core.

This file shallowly embeds the Python sources under `src/hdc/` into Lean:

* `SymbolEncoder` (`symbol_encoder.py`): random injection of symbols into
  sparse bit patterns, decode by weight accumulation.
* `NumericEncoder` (`numeric_encoder.py`): the order-preserving incremental
  codebook over quantized levels.
* `ESDR` (`esdr.py`): the weighted bit-pattern memory with `overlap`,
  `similarity`, `learn`, `bundle` and the `set_value` pipeline.

Modelling conventions:

* Python floats are modelled as exact rationals (`ℚ`).
* Python dicts are modelled as association lists (`List (κ × β)`) with
  insertion-order semantics: updating an existing key keeps its position,
  a fresh key is appended at the end.  Python `dict[k]` lookups that can
  raise `KeyError` are modelled with `Option`/`Except`.
* The module-level PRNG (`random`) is modelled as a stream of naturals
  `Rng := ℕ → ℕ`; a draw consumes the head of the stream.  `random.choice`
  picks the element at index `head % length` and `random.sample` repeatedly
  picks-and-removes.  Quantifying over all streams captures every outcome
  the Python PRNG can produce; concrete streams give concrete runs.
* Exceptions (`KeyError`, `IndexError`, `ValueError` from a too-large
  sample, the empty-sequence `IndexError` of `random.choice`, `TypeError`)
  are modelled by an error result carrying the mutated state, because a
  raising Python method leaves its object in the partially mutated state.
* Python `while` loops over quantized levels are driven by an explicitly
  computed fuel (`loopFuel`), which is an exact iteration bound for a
  positive quantization step, the only case the spec admits.
-/

namespace Samdb

/-- The PRNG is a stream of natural numbers; the head is the next draw. -/
abbrev Rng := ℕ → ℕ

/-- Advance the stream by one draw. -/
def Rng.shift (r : Rng) : Rng := fun n => r (n + 1)

/-- Model of `random.choice(seq)`: pick the element at index
`head % length`; on an empty sequence Python raises `IndexError`,
modelled by `none`. -/
def choice (l : List α) (r : Rng) : Option (α × Rng) :=
  if h : 0 < l.length then some (l.get ⟨r 0 % l.length, Nat.mod_lt _ h⟩, r.shift)
  else none

/-- Auxiliary recursion of `sample`: draw one element at index
`head % length`, remove it from the pool and recurse. -/
def sampleGo : ℕ → List α → Rng → List α × Rng
  | 0, _, r => ([], r)
  | k + 1, pool, r =>
    if h : 0 < pool.length then
      let i := r 0 % pool.length
      let x := pool.get ⟨i, Nat.mod_lt _ h⟩
      let rest := sampleGo k (pool.eraseIdx i) r.shift
      (x :: rest.1, rest.2)
    else ([], r)

/-- Model of `random.sample(pool, k)`: `k` distinct draws without
replacement; Python raises `ValueError` when `k` exceeds the population
size, modelled by `none`. -/
def sample (pool : List α) (k : ℕ) (r : Rng) : Option (List α × Rng) :=
  if pool.length < k then none else some (sampleGo k pool r)

/-- Association-list lookup with decidable key equality (Python `d[k]` /
`k in d`, returning `none` where Python raises `KeyError`). -/
def alookup [DecidableEq κ] : List (κ × β) → κ → Option β
  | [], _ => none
  | (k, v) :: rest, q => if k = q then some v else alookup rest q

/-- Python dict assignment `d[k] = v`: update in place when the key
exists (keeping its position), otherwise append the new entry. -/
def dictSet [DecidableEq κ] (d : List (κ × β)) (k : κ) (v : β) : List (κ × β) :=
  if (alookup d k).isSome then d.map (fun p => if p.1 = k then (k, v) else p)
  else d ++ [(k, v)]

/-- Python `int(x)` on a rational: truncation toward zero. -/
def ratTrunc (x : ℚ) : ℤ := if 0 ≤ x then ⌊x⌋ else ⌈x⌉

/-- Number of positions at which two lists differ (also counting
positions where exactly one of them is defined). -/
def diffCount : List ℕ → List ℕ → ℕ
  | [], l₂ => l₂.length
  | _ :: as, [] => diffCount as [] + 1
  | a :: as, b :: bs => (if a = b then 0 else 1) + diffCount as bs

/-- A weighted bit pattern (`BIT_PATTERN_TYPE`): a Python dict from bit to
weight, modelled as an association list over `ℕ × ℚ`. -/
abbrev Pattern := List (ℕ × ℚ)

/-- The selection pool used by both encoders: the whole dimension when no
population is supplied, otherwise the key set of the population dict
(dict keys are unique, hence the dedup). -/
def poolOf (dimension : ℕ) (population : Option (List (ℕ × ℚ))) : List ℕ :=
  match population with
  | none => List.range dimension
  | some p => (p.map Prod.fst).dedup

/-- `SYMBOL_TYPE = Union[str, int]` as a tagged variant. -/
inductive Symb
  | str : String → Symb
  | int : ℤ → Symb
deriving DecidableEq

/-- The exceptions the embedded code can raise. -/
inductive EncError
  | populationTooSmall
  | populationExhausted
  | keyError
  | indexError
  | typeError
deriving DecidableEq

instance exceptDecEq {ε α : Type} [DecidableEq ε] [DecidableEq α] :
    DecidableEq (Except ε α) := fun a b =>
  match a, b with
  | .ok x, .ok y =>
    if h : x = y then .isTrue (by rw [h]) else .isFalse (by intro hc; cases hc; exact h rfl)
  | .error x, .error y =>
    if h : x = y then .isTrue (by rw [h]) else .isFalse (by intro hc; cases hc; exact h rfl)
  | .ok _, .error _ => .isFalse (by intro hc; cases hc)
  | .error _, .ok _ => .isFalse (by intro hc; cases hc)

/-- State of `SymbolEncoder` (persistence fields of the Python class are
out of scope; they never influence `encode`/`decode`). -/
structure SymbolEncoder where
  dimension : ℕ
  max_nbits : ℕ
  symbols : List (Symb × List ℕ)
  bits : List (ℕ × List Symb)
deriving DecidableEq

namespace SymbolEncoder

/-- `SymbolEncoder.__init__` (fresh, non-restored):
`max_nbits = max(int(sparsity * dimension), 1)`, empty maps. -/
def init (dimension : ℕ) (sparsity : ℚ) : SymbolEncoder :=
  { dimension := dimension
    max_nbits := max (ratTrunc (sparsity * dimension)).toNat 1
    symbols := []
    bits := [] }

/-- Reverse-index update: `self._bits[bit] = {symbol}` or set-insert. -/
def addBit (bits : List (ℕ × List Symb)) (b : ℕ) (s : Symb) : List (ℕ × List Symb) :=
  match alookup bits b with
  | none => bits ++ [(b, [s])]
  | some l => if s ∈ l then bits else dictSet bits b (l ++ [s])

/-- `SymbolEncoder.encode`: return the stored pattern for a known symbol;
otherwise sample `max_nbits` bits from the pool (the full dimension, or
the keys of the supplied population), store them and return them with
weight 1.0. -/
def encode (e : SymbolEncoder) (symbol : Symb) (population : Option Pattern) (r : Rng) :
    Except EncError Pattern × SymbolEncoder × Rng :=
  match alookup e.symbols symbol with
  | some bs => (.ok (bs.map (fun b => (b, (1 : ℚ)))), e, r)
  | none =>
    match sample (poolOf e.dimension population) e.max_nbits r with
    | none => (.error .populationTooSmall, e, r)
    | some (bs, r₁) =>
      let e₁ : SymbolEncoder :=
        { e with
          symbols := e.symbols ++ [(symbol, bs)]
          bits := bs.foldl (fun acc b => addBit acc b symbol) e.bits }
      (.ok (bs.map (fun b => (b, (1 : ℚ)))), e₁, r₁)

/-- Accumulation loop of `SymbolEncoder.decode`: for each bit of the
pattern, `self._bits[bit]` (raising `KeyError` on an unknown bit) and
accumulate the bit weight onto every symbol using that bit. -/
def decodeGo (e : SymbolEncoder) : Pattern → List (Symb × ℚ) → Except EncError (List (Symb × ℚ))
  | [], acc => .ok acc
  | (b, w) :: rest, acc =>
    match alookup e.bits b with
    | none => .error .keyError
    | some syms =>
      let acc₁ := syms.foldl
        (fun m s =>
          match alookup m s with
          | none => m ++ [(s, w)]
          | some w₀ => dictSet m s (w₀ + w)) acc
      decodeGo e rest acc₁

/-- `SymbolEncoder.decode`: accumulate weights per symbol, then sort by
weight descending (Python `list.sort` is stable). -/
def decode (e : SymbolEncoder) (bits : Pattern) : Except EncError (List (Symb × ℚ)) :=
  (decodeGo e bits []).map (fun m => m.mergeSort (fun a b => decide (b.2 ≤ a.2)))

end SymbolEncoder

/-- State of `NumericEncoder` (`numeric_encoder.py`). -/
structure NumericEncoder where
  dimension : ℕ
  max_nbits : ℕ
  q_value : List (ℚ × List ℕ)
  bits : List (ℕ × List ℚ)
  q_step : ℚ
  lower_bit_index : ℕ
  upper_bit_index : ℕ
  upper_q_value : Option ℚ
  lower_q_value : Option ℚ
deriving DecidableEq

namespace NumericEncoder

/-- `NumericEncoder.__init__`: note that `_lower_bit_index` is the
literal constant `39` in the source, independently of `max_nbits`. -/
def init (dimension : ℕ) (sparsity quantise_step : ℚ) : NumericEncoder :=
  { dimension := dimension
    max_nbits := max (ratTrunc (sparsity * dimension)).toNat 1
    q_value := []
    bits := []
    q_step := quantise_step
    lower_bit_index := 39
    upper_bit_index := 0
    upper_q_value := none
    lower_q_value := none }

/-- The quantization applied at the top of `encode`:
`int(numeric / self._q_step) * self._q_step` (truncation toward zero). -/
def quantise (numeric q_step : ℚ) : ℚ := (ratTrunc (numeric / q_step) : ℚ) * q_step

/-- `q_step_range = q_step * (max_nbits - 1)` (Python int subtraction). -/
def qStepRange (e : NumericEncoder) : ℚ := e.q_step * ((e.max_nbits : ℤ) - 1 : ℤ)

/-- Reverse-index update during extension: for every bit of the new
codeword, append the *requested* quantized value `qv` to `self._bits[bit]`
(the source appends `q_value`, not the newly created level). -/
def addBits (bits : List (ℕ × List ℚ)) (cw : List ℕ) (qv : ℚ) : List (ℕ × List ℚ) :=
  cw.foldl
    (fun acc b =>
      match alookup acc b with
      | none => acc ++ [(b, [qv])]
      | some l => dictSet acc b (l ++ [qv])) bits

/-- An exact iteration bound for the extension loops: the number of grid
points `curr, curr + st, …` that are `≤ target` (for `st > 0`). -/
def loopFuel (st curr target : ℚ) : ℕ := (⌊(target - curr) / st⌋ + 1).toNat

/-- One iteration of the upward extension (and cold-start) loop body:
copy the previous codeword, replace the bit at `_upper_bit_index` by a
random bit from `pool` minus the current codeword (raising
`PopulationExhausted` when that difference is empty, `IndexError` when
the index is out of range), advance the index with wrap-around, install
the codeword at `curr`, update the reverse index with the requested
`qv`, and record `curr` as the new upper level. -/
def upStep (pool : List ℕ) (qv : ℚ) (cw : List ℕ) (curr : ℚ) (e : NumericEncoder) (r : Rng) :
    Except EncError (List ℕ × NumericEncoder × Rng) :=
  match choice (pool.filter (fun b => decide (b ∉ cw))) r with
  | none => .error .populationExhausted
  | some (newBit, r₁) =>
    if e.upper_bit_index < cw.length then
      .ok (cw.set e.upper_bit_index newBit,
        { e with
          upper_bit_index :=
            if e.max_nbits ≤ e.upper_bit_index + 1 then 0 else e.upper_bit_index + 1
          q_value := dictSet e.q_value curr (cw.set e.upper_bit_index newBit)
          bits := addBits e.bits (cw.set e.upper_bit_index newBit) qv
          upper_q_value := some curr }, r₁)
    else .error .indexError

/-- The upward extension loop (also the cold-start loop, whose body is
identical): run `upStep` while `curr ≤ target`.  An error result
carries the state mutated by the completed iterations. -/
def upLoop (pool : List ℕ) (qv target st : ℚ) :
    ℕ → List ℕ → ℚ → NumericEncoder → Rng → Option EncError × NumericEncoder × Rng
  | 0, _, _, e, r => (none, e, r)
  | fuel + 1, cw, curr, e, r =>
    if curr ≤ target then
      match upStep pool qv cw curr e r with
      | .error err => (some err, e, r)
      | .ok (cw₁, e₁, r₁) => upLoop pool qv target st fuel cw₁ (curr + st) e₁ r₁
    else (none, e, r)

/-- One iteration of the downward extension loop body: replace the bit
at `_lower_bit_index`, decrement the index with wrap-around to
`max_nbits - 1`, install at `curr` and record it as the new lower level. -/
def downStep (pool : List ℕ) (qv : ℚ) (cw : List ℕ) (curr : ℚ) (e : NumericEncoder) (r : Rng) :
    Except EncError (List ℕ × NumericEncoder × Rng) :=
  match choice (pool.filter (fun b => decide (b ∉ cw))) r with
  | none => .error .populationExhausted
  | some (newBit, r₁) =>
    if e.lower_bit_index < cw.length then
      .ok (cw.set e.lower_bit_index newBit,
        { e with
          lower_bit_index :=
            if e.lower_bit_index = 0 then e.max_nbits - 1 else e.lower_bit_index - 1
          q_value := dictSet e.q_value curr (cw.set e.lower_bit_index newBit)
          bits := addBits e.bits (cw.set e.lower_bit_index newBit) qv
          lower_q_value := some curr }, r₁)
    else .error .indexError

/-- The downward extension loop: run `downStep` while `curr ≥ target`. -/
def downLoop (pool : List ℕ) (qv target st : ℚ) :
    ℕ → List ℕ → ℚ → NumericEncoder → Rng → Option EncError × NumericEncoder × Rng
  | 0, _, _, e, r => (none, e, r)
  | fuel + 1, cw, curr, e, r =>
    if target ≤ curr then
      match downStep pool qv cw curr e r with
      | .error err => (some err, e, r)
      | .ok (cw₁, e₁, r₁) => downLoop pool qv target st fuel cw₁ (curr - st) e₁ r₁
    else (none, e, r)

/-- The upward-extension block of `encode` (runs when an upper level
exists and `q_value + q_step_range > self._upper_q_value`). -/
def extendUp (e : NumericEncoder) (pool : List ℕ) (qv upv : ℚ) (r : Rng) :
    Option EncError × NumericEncoder × Rng :=
  if qv + e.qStepRange > upv then
    match alookup e.q_value upv with
    | none => (some .keyError, e, r)
    | some cw =>
      upLoop pool qv (qv + e.qStepRange) e.q_step
        (loopFuel e.q_step (upv + e.q_step) (qv + e.qStepRange))
        cw (upv + e.q_step) e r
  else (none, e, r)

/-- The downward-extension block of `encode` (runs when
`q_value - q_step_range < self._lower_q_value`). -/
def extendDown (e : NumericEncoder) (pool : List ℕ) (qv : ℚ) (r : Rng) :
    Option EncError × NumericEncoder × Rng :=
  match e.lower_q_value with
  | none => (some .typeError, e, r)
  | some lov =>
    if qv - e.qStepRange < lov then
      match alookup e.q_value lov with
      | none => (some .keyError, e, r)
      | some cw =>
        downLoop pool qv (qv - e.qStepRange) e.q_step
          (loopFuel e.q_step (qv - e.qStepRange) (lov - e.q_step))
          cw (lov - e.q_step) e r
    else (none, e, r)

/-- The cold-start block of `encode` (no level encoded yet): set
`_lower_q_value` to `qv - q_step_range` *before* sampling the first
codeword, then run the upward loop from that level. -/
def coldStart (e : NumericEncoder) (pool : List ℕ) (qv : ℚ) (r : Rng) :
    Option EncError × NumericEncoder × Rng :=
  let start := qv - e.qStepRange
  let e₀ : NumericEncoder := { e with lower_q_value := some start }
  match sample pool e.max_nbits r with
  | none => (some .populationTooSmall, e₀, r)
  | some (bs, r₁) =>
    upLoop pool qv (qv + e.qStepRange) e.q_step
      (loopFuel e.q_step start (qv + e.qStepRange))
      bs start e₀ r₁

/-- Final step of `encode`: `{bit: 1.0 for bit in self._q_value[q_value]}`. -/
def result (e : NumericEncoder) (qv : ℚ) (r : Rng) :
    Except EncError Pattern × NumericEncoder × Rng :=
  match alookup e.q_value qv with
  | none => (.error .keyError, e, r)
  | some cw => (.ok (cw.dedup.map (fun b => (b, (1 : ℚ)))), e, r)

/-- `NumericEncoder.encode`: quantise, extend the codebook when the
window `[qv - q_step_range, qv + q_step_range]` is not fully present
(cold start, upward run, then downward run), and return the codeword of
the quantized level with weight 1.0.  Errors carry the mutated state. -/
def encode (e : NumericEncoder) (numeric : ℚ) (population : Option Pattern) (r : Rng) :
    Except EncError Pattern × NumericEncoder × Rng :=
  let qv := quantise numeric e.q_step
  if (alookup e.q_value (qv + e.qStepRange)).isSome ∧
      (alookup e.q_value (qv - e.qStepRange)).isSome then
    result e qv r
  else
    match e.upper_q_value with
    | some upv =>
      match extendUp e (poolOf e.dimension population) qv upv r with
      | (some err, e₁, r₁) => (.error err, e₁, r₁)
      | (none, e₁, r₁) =>
        match extendDown e₁ (poolOf e.dimension population) qv r₁ with
        | (some err, e₂, r₂) => (.error err, e₂, r₂)
        | (none, e₂, r₂) => result e₂ qv r₂
    | none =>
      match coldStart e (poolOf e.dimension population) qv r with
      | (some err, e₁, r₁) => (.error err, e₁, r₁)
      | (none, e₁, r₁) => result e₁ qv r₁

/-- Accumulation loop of `NumericEncoder.decode`: for each bit of the
pattern, `self._bits[bit]` (raising `KeyError` on an unknown bit),
accumulate the bit weight onto each of its levels and track the first
level to reach the maximal weight. -/
def decodeGo (e : NumericEncoder) :
    Pattern → List (ℚ × ℚ) → ℚ → Option ℚ →
    Except EncError (List (ℚ × ℚ) × ℚ × Option ℚ)
  | [], acc, mw, mq => .ok (acc, mw, mq)
  | (b, w) :: rest, acc, mw, mq =>
    match alookup e.bits b with
    | none => .error .keyError
    | some qs =>
      let step := qs.foldl
        (fun (st : List (ℚ × ℚ) × ℚ × Option ℚ) q =>
          let acc₁ :=
            match alookup st.1 q with
            | none => st.1 ++ [(q, w)]
            | some w₀ => dictSet st.1 q (w₀ + w)
          let wq := (alookup acc₁ q).getD 0
          if st.2.1 < wq then (acc₁, wq, some q) else (acc₁, st.2.1, st.2.2))
        (acc, mw, mq)
      decodeGo e rest step.1 step.2.1 step.2.2

/-- `NumericEncoder.decode`: returns the first level to reach the maximal
accumulated weight, that weight, and the distribution sorted by level. -/
def decode (e : NumericEncoder) (bits : Pattern) :
    Except EncError (Option ℚ × ℚ × List (ℚ × ℚ)) :=
  (decodeGo e bits [] 0 none).map
    (fun st => (st.2.2, st.2.1, st.1.mergeSort (fun a b => decide (a.1 ≤ b.1))))

end NumericEncoder

/-- Keys of an ESDR bit pattern: raw integer bits, or label-tagged keys
created by `bundle` with a `bit_label` (Python builds the tuple
`(bit_label, bit)`, which can nest). -/
inductive BitKey
  | raw : ℕ → BitKey
  | labeled : String → BitKey → BitKey
deriving DecidableEq

/-- State of `ESDR` (`esdr.py`): the weighted bit pattern together with
the cached `_sum_bits`. -/
structure ESDR where
  bits : List (BitKey × ℚ)
  sum_bits : ℚ
deriving DecidableEq

/-- The value carried by one field of a record passed to `set_value`. -/
inductive FieldValue
  | str : String → FieldValue
  | num : ℚ → FieldValue
  | list : List FieldValue → FieldValue
  | other : FieldValue

namespace ESDR

/-- `ESDR.__init__` from a raw iterable of bits: every bit gets weight
1.0 and `_sum_bits` is the sum of the weights. -/
def ofBits (l : List BitKey) : ESDR :=
  let bits := l.dedup.map (fun b => (b, (1 : ℚ)))
  { bits := bits, sum_bits := (bits.map Prod.snd).sum }

/-- `ESDR.__init__` with no source: empty pattern. -/
def empty : ESDR := { bits := [], sum_bits := 0 }

/-- `ESDR.overlap`: sum of `min(self._bits[bit], esdr_bits[bit])` over
the common bits. -/
def overlap (a b : ESDR) : ℚ :=
  ((a.bits.filter (fun p => (alookup b.bits p.1).isSome)).map
    (fun p => min p.2 ((alookup b.bits p.1).getD 0))).sum

/-- `ESDR.similarity`: `overlap / _sum_bits` when `_sum_bits > 0`,
otherwise 0. -/
def similarity (a b : ESDR) : ℚ :=
  if 0 < a.sum_bits then a.overlap b / a.sum_bits else 0

/-- `ESDR.learn`: weighted moving average over the union of the bits,
recomputing `_sum_bits`.  Bits only in `self` are scaled by
`1 - learn_rate`; bits only in the other pattern are inserted with
weight `learn_rate * other[bit]` (so a rate of 0 inserts them with
weight 0). -/
def learn (a b : ESDR) (learn_rate : ℚ) : ESDR :=
  let inv_rate := 1 - learn_rate
  let aKeys := a.bits.map Prod.fst
  let allKeys := aKeys ++ (b.bits.map Prod.fst).filter (fun k => decide (k ∉ aKeys))
  let weight : BitKey → ℚ := fun k =>
    match alookup a.bits k, alookup b.bits k with
    | some wa, some wb => wa * inv_rate + learn_rate * wb
    | some wa, none => wa * inv_rate
    | none, some wb => learn_rate * wb
    | none, none => 0
  let bits := allKeys.map (fun k => (k, weight k))
  { bits := bits, sum_bits := (bits.map Prod.snd).sum }

/-- `ESDR.bundle`: merge the other pattern's bits into `self`, tagging
keys with the label when one is given.  Colliding keys are overwritten;
`_sum_bits` is *not* updated by the source. -/
def bundle (a b : ESDR) (bit_label : Option String) : ESDR :=
  match bit_label with
  | some l =>
    { a with bits := b.bits.foldl (fun acc p => dictSet acc (BitKey.labeled l p.1) p.2) a.bits }
  | none =>
    { a with bits := b.bits.foldl (fun acc p => dictSet acc p.1 p.2) a.bits }

end ESDR

/-- Result of `ESDR.set_value`: the `fields` map together with the
mutated ESDR and encoders and the advanced RNG. -/
structure SetValueResult where
  result : Except EncError (List (String × String))
  esdr : ESDR
  fe : SymbolEncoder
  se : SymbolEncoder
  ne : NumericEncoder
  rng : Rng

namespace ESDR

/-- Merge a value bit pattern into the ESDR:
`self._bits[bit] = value_bit_pattern[bit]` (raw keys, overwrite,
`_sum_bits` untouched). -/
def mergeValue (a : ESDR) (p : Pattern) : ESDR :=
  { a with bits := p.foldl (fun acc q => dictSet acc (BitKey.raw q.1) q.2) a.bits }

/-- One scalar field of `set_value`: encode the field name (no
population), then encode a string value with the symbol encoder or a
numeric value with the numeric encoder using the field pattern as the
population, and merge the value pattern into the ESDR. -/
def setScalar (a : ESDR) (field : String) (v : FieldValue)
    (fe se : SymbolEncoder) (ne : NumericEncoder) (r : Rng)
    (fields : List (String × String)) (outField : String) :
    Except EncError Unit × List (String × String) × ESDR × SymbolEncoder × SymbolEncoder ×
      NumericEncoder × Rng :=
  match fe.encode (.str field) none r with
  | (.error err, fe₁, r₁) => (.error err, fields, a, fe₁, se, ne, r₁)
  | (.ok fieldPat, fe₁, r₁) =>
    match v with
    | .str s =>
      match se.encode (.str s) (some fieldPat) r₁ with
      | (.error err, se₁, r₂) => (.error err, fields, a, fe₁, se₁, ne, r₂)
      | (.ok valuePat, se₁, r₂) =>
        (.ok (), dictSet fields outField "symbol", a.mergeValue valuePat, fe₁, se₁, ne, r₂)
    | .num x =>
      match ne.encode x (some fieldPat) r₁ with
      | (.error err, ne₁, r₂) => (.error err, fields, a, fe₁, se, ne₁, r₂)
      | (.ok valuePat, ne₁, r₂) =>
        (.ok (), dictSet fields outField "numeric", a.mergeValue valuePat, fe₁, se, ne₁, r₂)
    | _ => (.error .typeError, fields, a, fe₁, se, ne, r₁)

/-- The per-item loop over a list-valued field, with synthesized field
names `f"{field}_{item_idx}"`. -/
def setItems (a : ESDR) (field : String) (items : List FieldValue) (idx : ℕ)
    (fe se : SymbolEncoder) (ne : NumericEncoder) (r : Rng)
    (fields : List (String × String)) :
    Except EncError Unit × List (String × String) × ESDR × SymbolEncoder × SymbolEncoder ×
      NumericEncoder × Rng :=
  match items with
  | [] => (.ok (), fields, a, fe, se, ne, r)
  | v :: rest =>
    match setScalar a (field ++ "_" ++ toString idx) v fe se ne r fields field with
    | (.error err, f₁, a₁, fe₁, se₁, ne₁, r₁) => (.error err, f₁, a₁, fe₁, se₁, ne₁, r₁)
    | (.ok _, f₁, a₁, fe₁, se₁, ne₁, r₁) => setItems a₁ field rest (idx + 1) fe₁ se₁ ne₁ r₁ f₁

/-- The field loop of `set_value`. -/
def setFields (a : ESDR) (record : List (String × FieldValue))
    (fe se : SymbolEncoder) (ne : NumericEncoder) (r : Rng)
    (fields : List (String × String)) : SetValueResult :=
  match record with
  | [] => ⟨.ok fields, a, fe, se, ne, r⟩
  | (field, v) :: rest =>
    match v with
    | .str _ | .num _ =>
      match setScalar a field v fe se ne r fields field with
      | (.error err, f₁, a₁, fe₁, se₁, ne₁, r₁) => ⟨.error err, a₁, fe₁, se₁, ne₁, r₁⟩
      | (.ok _, f₁, a₁, fe₁, se₁, ne₁, r₁) => setFields a₁ rest fe₁ se₁ ne₁ r₁ f₁
    | .list items =>
      match setItems a field items 0 fe se ne r fields with
      | (.error err, f₁, a₁, fe₁, se₁, ne₁, r₁) => ⟨.error err, a₁, fe₁, se₁, ne₁, r₁⟩
      | (.ok _, f₁, a₁, fe₁, se₁, ne₁, r₁) => setFields a₁ rest fe₁ se₁ ne₁ r₁ f₁
    | .other => setFields a rest fe se ne r fields

/-- `ESDR.set_value`: the two-level encoding pipeline over a record.
Scalar string fields are encoded by the symbol encoder and numeric fields
by the numeric encoder, each inside the population produced by encoding
the field name; list fields are handled per item with synthesized names;
other values are silently skipped.  `_sum_bits` is not updated. -/
def set_value (a : ESDR) (record : List (String × FieldValue))
    (fe se : SymbolEncoder) (ne : NumericEncoder) (r : Rng) : SetValueResult :=
  setFields a record fe se ne r []

end ESDR

/-! ### Basic lemmas about the dictionary and RNG models -/

theorem alookup_append [DecidableEq κ] (d₁ d₂ : List (κ × β)) (q : κ) :
    alookup (d₁ ++ d₂) q =
      match alookup d₁ q with
      | some v => some v
      | none => alookup d₂ q := by
  induction d₁ with
  | nil => rfl
  | cons p rest ih =>
    obtain ⟨k, v⟩ := p
    by_cases h : k = q <;> simp [alookup, h, ih]

theorem alookup_append_ne [DecidableEq κ] (d : List (κ × β)) (k q : κ) (v : β) (h : k ≠ q) :
    alookup (d ++ [(k, v)]) q = alookup d q := by
  rw [alookup_append]
  cases halt : alookup d q <;> simp [alookup, h]

theorem alookup_append_self [DecidableEq κ] (d : List (κ × β)) (k : κ) (v : β)
    (h : alookup d k = none) : alookup (d ++ [(k, v)]) k = some v := by
  rw [alookup_append, h]
  simp [alookup]

theorem dictSet_of_lookup_none [DecidableEq κ] (d : List (κ × β)) (k : κ) (v : β)
    (h : alookup d k = none) : dictSet d k v = d ++ [(k, v)] := by
  simp [dictSet, h]

theorem alookup_isSome_of_eq [DecidableEq κ] (d : List (κ × β)) (q : κ) (v : β)
    (h : alookup d q = some v) : (alookup d q).isSome := by
  simp [h]

/-- `diffCount` of a list with itself is zero. -/
theorem diffCount_self (l : List ℕ) : diffCount l l = 0 := by
  induction l with
  | nil => rfl
  | cons a as ih => simp [diffCount, ih]

theorem diffCount_nil_right (l : List ℕ) : diffCount l [] = l.length := by
  induction l with
  | nil => rfl
  | cons a as ih => simp [diffCount, ih]

/-- `diffCount` is symmetric. -/
theorem diffCount_comm (l₁ : List ℕ) : ∀ l₂, diffCount l₁ l₂ = diffCount l₂ l₁ := by
  induction l₁ with
  | nil =>
    intro l₂
    simp [diffCount, diffCount_nil_right]
  | cons a as ih =>
    intro l₂
    cases l₂ with
    | nil => simp [diffCount, diffCount_nil_right]
    | cons b bs =>
      by_cases h : a = b <;> simp [diffCount, h, ih bs, eq_comm]

/-- Replacing the element at an in-range position `i` by a different
value changes the list at exactly one position. -/
theorem diffCount_set (l : List ℕ) : ∀ (i : ℕ) (b : ℕ), i < l.length →
    l.get? i ≠ some b → diffCount l (l.set i b) = 1 := by
  induction l with
  | nil => intro i b h; simp at h
  | cons a as ih =>
    intro i b hi hne
    cases i with
    | zero =>
      simp only [List.get?] at hne
      have hab : ¬ a = b := by intro h; exact hne (by rw [h])
      simp [List.set, diffCount, hab, diffCount_self]
    | succ j =>
      have hj : j < as.length := by simpa using hi
      have hne' : as.get? j ≠ some b := by simpa [List.get?] using hne
      simp [List.set, diffCount, ih j b hj hne']

/-- Lists at bounded `diffCount` have almost-included element sets: the
exceptional elements fit in a finset of size at most the `diffCount`. -/
theorem toFinset_subset_of_diffCount (l₁ : List ℕ) : ∀ l₂ : List ℕ,
    ∃ s : Finset ℕ, s.card ≤ diffCount l₁ l₂ ∧ l₁.toFinset ⊆ l₂.toFinset ∪ s := by
  induction l₁ with
  | nil => intro l₂; exact ⟨∅, by simp⟩
  | cons a as ih =>
    intro l₂
    cases l₂ with
    | nil =>
      obtain ⟨s, hcard, hsub⟩ := ih []
      refine ⟨insert a s, ?_, ?_⟩
      · calc (insert a s).card ≤ s.card + 1 := Finset.card_insert_le a s
          _ ≤ diffCount as [] + 1 := by omega
          _ = diffCount (a :: as) [] := rfl
      · intro x hx
        simp only [List.toFinset_cons, Finset.mem_insert, List.mem_toFinset] at hx
        have hx₂ : x = a ∨ x ∈ s := by
          rcases hx with rfl | hx
          · exact Or.inl rfl
          · have := hsub (List.mem_toFinset.mpr hx)
            simp only [List.toFinset_nil, Finset.empty_union] at this
            exact Or.inr this
        simp only [Finset.mem_union, Finset.mem_insert]
        tauto
    | cons b bs =>
      obtain ⟨s, hcard, hsub⟩ := ih bs
      by_cases hab : a = b
      · refine ⟨s, ?_, ?_⟩
        · simpa [diffCount, hab] using hcard
        · intro x hx
          simp only [List.toFinset_cons, Finset.mem_insert, List.mem_toFinset] at hx
          simp only [Finset.mem_union, List.toFinset_cons, Finset.mem_insert, List.mem_toFinset]
          rcases hx with rfl | hx
          · exact Or.inl (Or.inl hab)
          · have := hsub (List.mem_toFinset.mpr hx)
            simp only [Finset.mem_union, List.mem_toFinset] at this
            tauto
      · refine ⟨insert a s, ?_, ?_⟩
        · calc (insert a s).card ≤ s.card + 1 := Finset.card_insert_le a s
            _ ≤ diffCount as bs + 1 := by omega
            _ = diffCount (a :: as) (b :: bs) := by simp [diffCount, hab]; omega
        · intro x hx
          simp only [List.toFinset_cons, Finset.mem_insert, List.mem_toFinset] at hx
          simp only [Finset.mem_union, List.toFinset_cons, Finset.mem_insert, List.mem_toFinset]
          rcases hx with rfl | hx
          · exact Or.inr (Or.inl rfl)
          · have := hsub (List.mem_toFinset.mpr hx)
            simp only [Finset.mem_union, List.mem_toFinset] at this
            tauto

/-- Elements returned by `sampleGo` all come from the pool. -/
theorem sampleGo_subset (k : ℕ) : ∀ (pool : List α) (r : Rng),
    ∀ x ∈ (sampleGo k pool r).1, x ∈ pool := by
  induction k with
  | zero => intro pool r x hx; simp [sampleGo] at hx
  | succ k ih =>
    intro pool r x hx
    rw [sampleGo] at hx
    split at hx
    · next h =>
      simp only [List.mem_cons] at hx
      rcases hx with rfl | hx
      · exact List.get_mem _ _ _
      · have := ih (pool.eraseIdx (r 0 % pool.length)) r.shift x hx
        exact List.mem_of_mem_eraseIdx this
    · simp at hx

/-- `sampleGo` returns exactly `k` elements when the pool is large enough. -/
theorem sampleGo_length (k : ℕ) : ∀ (pool : List α) (r : Rng), k ≤ pool.length →
    (sampleGo k pool r).1.length = k := by
  induction k with
  | zero => intro pool r _; rfl
  | succ k ih =>
    intro pool r hk
    have hpos : 0 < pool.length := lt_of_lt_of_le (Nat.succ_pos k) hk
    rw [sampleGo]
    rw [dif_pos hpos]
    have hlen : (pool.eraseIdx (r 0 % pool.length)).length + 1 = pool.length :=
      List.length_eraseIdx_add_one (Nat.mod_lt _ hpos)
    simp only [List.length_cons]
    rw [ih (pool.eraseIdx (r 0 % pool.length)) r.shift (by omega)]

/-- `sampleGo` on a duplicate-free pool returns a duplicate-free list. -/
theorem sampleGo_nodup [DecidableEq α] (k : ℕ) : ∀ (pool : List α) (r : Rng), pool.Nodup →
    (sampleGo k pool r).1.Nodup := by
  induction k with
  | zero => intro pool r _; simp [sampleGo]
  | succ k ih =>
    intro pool r hnd
    rw [sampleGo]
    split
    · next h =>
      simp only [List.nodup_cons]
      constructor
      · intro hmem
        have hsub := sampleGo_subset k (pool.eraseIdx (r 0 % pool.length)) r.shift _ hmem
        have heq : pool.erase (pool.get ⟨r 0 % pool.length, Nat.mod_lt _ h⟩) =
            pool.eraseIdx (r 0 % pool.length) := by
          have := hnd.erase_getElem (r 0 % pool.length) (Nat.mod_lt _ h)
          simpa [List.get_eq_getElem] using this
        rw [← heq] at hsub
        exact (List.Nodup.not_mem_erase hnd) hsub
      · exact ih _ r.shift (hnd.eraseIdx _)
    · simp

/-! ### The codebook invariant of the numeric encoder

The codebook of a `NumericEncoder` is always a contiguous chain of
quantized levels `lo, lo + st, …, lo + m·st`, each with a codeword of
exactly `max_nbits` distinct bits, and adjacent codewords differ at
exactly one position.  `NumReachable` captures the states the Python
object can be in: a fresh encoder (with a positive quantization step,
the only well-formed parameterization per the spec), or the state after
any further `encode` call — including calls that raise, since a raising
`encode` leaves the partially mutated object behind. -/

/-- The contiguous-chain invariant of the codebook dictionary. -/
structure GoodChain (st : ℚ) (n : ℕ) (d : List (ℚ × List ℕ)) (lo : ℚ) (m : ℕ) : Prop where
  mem_iff : ∀ q, (alookup d q).isSome ↔ ∃ i : ℕ, i ≤ m ∧ q = lo + i * st
  codeword : ∀ q cw, alookup d q = some cw → cw.length = n ∧ cw.Nodup
  adjacent : ∀ i : ℕ, i < m → ∀ cw₁ cw₂, alookup d (lo + i * st) = some cw₁ →
    alookup d (lo + (i + 1) * st) = some cw₂ → diffCount cw₁ cw₂ = 1

/-- The state invariant of the numeric encoder. -/
def NumInv (e : NumericEncoder) : Prop :=
  0 < e.q_step ∧ 0 < e.max_nbits ∧ e.upper_bit_index < e.max_nbits ∧
    ((e.upper_q_value = none ∧ e.q_value = []) ∨
      ∃ (lo : ℚ) (m : ℕ), e.lower_q_value = some lo ∧
        e.upper_q_value = some (lo + m * e.q_step) ∧
        GoodChain e.q_step e.max_nbits e.q_value lo m)

/-- The numeric-encoder states reachable by the code: a fresh encoder
with positive quantization step, or the result state of any `encode`
call (successful or raising) on a reachable state. -/
inductive NumReachable : NumericEncoder → Prop
  | init (dimension : ℕ) (sparsity quantise_step : ℚ) (hst : 0 < quantise_step) :
      NumReachable (NumericEncoder.init dimension sparsity quantise_step)
  | encode (e : NumericEncoder) (numeric : ℚ) (population : Option Pattern) (r : Rng) :
      NumReachable e → NumReachable (NumericEncoder.encode e numeric population r).2.1

/-- Grid points are distinct for a positive step. -/
theorem grid_inj (lo st : ℚ) (hst : 0 < st) {i j : ℕ}
    (h : lo + i * st = lo + j * st) : i = j := by
  have h₁ : (i : ℚ) * st = (j : ℚ) * st := by linarith
  have h₂ : (i : ℚ) = j := mul_right_cancel₀ (ne_of_gt hst) h₁
  exact_mod_cast h₂

theorem grid_step (lo st : ℚ) (i : ℕ) : lo + i * st + st = lo + (i + 1) * st := by
  ring

theorem grid_zero (lo st : ℚ) : lo + (0 : ℕ) * st = lo := by norm_num

/-- A fresh upper level is not yet a key of a good chain. -/
theorem goodChain_lookup_top_none {st : ℚ} {n : ℕ} {d : List (ℚ × List ℕ)} {lo : ℚ} {m : ℕ}
    (hst : 0 < st) (gc : GoodChain st n d lo m) :
    alookup d (lo + ((m + 1 : ℕ) : ℚ) * st) = none := by
  cases hl : alookup d (lo + ((m + 1 : ℕ) : ℚ) * st) with
  | none => rfl
  | some cw =>
    exfalso
    have := (gc.mem_iff (lo + ((m + 1 : ℕ) : ℚ) * st)).mp (by rw [hl]; rfl)
    obtain ⟨i, hi, heq⟩ := this
    have := grid_inj lo st hst heq.symm
    omega

/-- A fresh lower level is not yet a key of a good chain. -/
theorem goodChain_lookup_bot_none {st : ℚ} {n : ℕ} {d : List (ℚ × List ℕ)} {lo : ℚ} {m : ℕ}
    (hst : 0 < st) (gc : GoodChain st n d lo m) :
    alookup d (lo - st) = none := by
  cases hl : alookup d (lo - st) with
  | none => rfl
  | some cw =>
    exfalso
    obtain ⟨i, _, heq⟩ := (gc.mem_iff (lo - st)).mp (by rw [hl]; rfl)
    have hq : (i : ℚ) * st = -st := by linarith
    have hge : (0 : ℚ) ≤ (i : ℚ) * st := by positivity
    nlinarith

/-- Extending a good chain by one level at the top. -/
theorem goodChain_extend_top {st : ℚ} {n : ℕ} {d : List (ℚ × List ℕ)} {lo : ℚ} {m : ℕ}
    (hst : 0 < st) (gc : GoodChain st n d lo m) (cw cw₁ : List ℕ)
    (hcw : alookup d (lo + m * st) = some cw)
    (hlen : cw₁.length = n) (hnd : cw₁.Nodup) (hdiff : diffCount cw cw₁ = 1) :
    GoodChain st n (d ++ [(lo + ((m + 1 : ℕ) : ℚ) * st, cw₁)]) lo (m + 1) := by
  have htopnone := goodChain_lookup_top_none hst gc
  constructor
  · intro q
    rw [alookup_append]
    constructor
    · intro hq
      cases hd : alookup d q with
      | some v =>
        obtain ⟨i, hi, heq⟩ := (gc.mem_iff q).mp (by simp [hd])
        exact ⟨i, by omega, heq⟩
      | none =>
        rw [hd] at hq
        by_cases hqe : lo + ((m + 1 : ℕ) : ℚ) * st = q
        · exact ⟨m + 1, le_refl _, hqe.symm⟩
        · simp only [alookup, if_neg hqe, Option.isSome_none] at hq
          exact absurd hq (by simp)
    · rintro ⟨i, hi, rfl⟩
      by_cases him : i ≤ m
      · have := (gc.mem_iff (lo + i * st)).mpr ⟨i, him, rfl⟩
        cases hd : alookup d (lo + i * st) with
        | some v => simp
        | none => rw [hd] at this; simp at this
      · have hieq : i = m + 1 := by omega
        subst hieq
        rw [htopnone]
        simp [alookup]
  · intro q cw₂ hq
    rw [alookup_append] at hq
    cases hd : alookup d q with
    | some v =>
      rw [hd] at hq
      have hv : v = cw₂ := by simpa using hq
      subst hv
      exact gc.codeword q v hd
    | none =>
      rw [hd] at hq
      by_cases hqe : lo + ((m + 1 : ℕ) : ℚ) * st = q
      · simp only [alookup, if_pos hqe] at hq
        cases hq
        exact ⟨hlen, hnd⟩
      · simp only [alookup, if_neg hqe] at hq
        exact absurd hq (by simp)
  · intro i hi cwa cwb ha hb
    by_cases him : i < m
    · have hne₁ : lo + ((m + 1 : ℕ) : ℚ) * st ≠ lo + i * st := by
        intro h; have := grid_inj lo st hst h; omega
      have hne₂ : lo + ((m + 1 : ℕ) : ℚ) * st ≠ lo + (i + 1) * st := by
        intro h
        have h₂ : lo + ((m + 1 : ℕ) : ℚ) * st = lo + ((i + 1 : ℕ) : ℚ) * st := by
          push_cast
          push_cast at h
          linarith
        have := grid_inj lo st hst h₂; omega
      rw [alookup_append_ne _ _ _ _ hne₁] at ha
      rw [alookup_append_ne _ _ _ _ hne₂] at hb
      exact gc.adjacent i him cwa cwb ha hb
    · have hieq : m = i := by omega
      subst hieq
      have hne₁ : lo + ((m + 1 : ℕ) : ℚ) * st ≠ lo + m * st := by
        intro h; have := grid_inj lo st hst h; omega
      rw [alookup_append_ne _ _ _ _ hne₁, hcw] at ha
      have hkey : lo + (m + 1) * st = lo + ((m + 1 : ℕ) : ℚ) * st := by push_cast; ring
      rw [hkey, alookup_append_self _ _ _ htopnone] at hb
      cases ha; cases hb
      exact hdiff

/-- A single freshly installed level forms a good chain of length 0. -/
theorem goodChain_singleton (st : ℚ) (n : ℕ) (lo : ℚ) (cw₁ : List ℕ)
    (hlen : cw₁.length = n) (hnd : cw₁.Nodup) :
    GoodChain st n [(lo, cw₁)] lo 0 := by
  constructor
  · intro q
    constructor
    · intro hq
      by_cases hqe : lo = q
      · exact ⟨0, le_refl _, by rw [← hqe, grid_zero]⟩
      · simp only [alookup, if_neg hqe] at hq
        exact absurd hq (by simp)
    · rintro ⟨i, hi, rfl⟩
      have hi0 : i = 0 := by omega
      subst hi0
      rw [grid_zero]
      simp [alookup]
  · intro q cw₂ hq
    by_cases hqe : lo = q
    · simp only [alookup, if_pos hqe] at hq
      cases hq
      exact ⟨hlen, hnd⟩
    · simp only [alookup, if_neg hqe] at hq
      cases hq
  · intro i hi
    omega

/-- Extending a good chain by one level at the bottom. -/
theorem goodChain_extend_bot {st : ℚ} {n : ℕ} {d : List (ℚ × List ℕ)} {lo : ℚ} {m : ℕ}
    (hst : 0 < st) (gc : GoodChain st n d lo m) (cw cw₁ : List ℕ)
    (hcw : alookup d lo = some cw)
    (hlen : cw₁.length = n) (hnd : cw₁.Nodup) (hdiff : diffCount cw₁ cw = 1) :
    GoodChain st n (d ++ [(lo - st, cw₁)]) (lo - st) (m + 1) := by
  have hbotnone := goodChain_lookup_bot_none hst gc
  have hshift : ∀ j : ℕ, lo - st + ((j + 1 : ℕ) : ℚ) * st = lo + j * st := by
    intro j; push_cast; ring
  constructor
  · intro q
    rw [alookup_append]
    constructor
    · intro hq
      cases hd : alookup d q with
      | some v =>
        obtain ⟨i, hi, heq⟩ := (gc.mem_iff q).mp (by rw [hd]; rfl)
        exact ⟨i + 1, by omega, by rw [hshift i]; exact heq⟩
      | none =>
        rw [hd] at hq
        by_cases hqe : lo - st = q
        · exact ⟨0, by omega, by rw [grid_zero]; exact hqe.symm⟩
        · simp only [alookup, if_neg hqe] at hq
          exact absurd hq (by simp)
    · rintro ⟨i, hi, rfl⟩
      cases i with
      | zero =>
        rw [grid_zero, hbotnone]
        simp [alookup]
      | succ j =>
        have hj : j ≤ m := by omega
        have hkey : lo - st + ((j + 1 : ℕ) : ℚ) * st = lo + j * st := hshift j
        have hmem := (gc.mem_iff (lo + j * st)).mpr ⟨j, hj, rfl⟩
        cases hd : alookup d (lo + j * st) with
        | some v =>
          have : lo - st + ((j + 1 : ℕ) : ℚ) * st = lo + (j : ℚ) * st := by push_cast; ring
          rw [this, hd]
          simp
        | none => rw [hd] at hmem; simp at hmem
  · intro q cw₂ hq
    rw [alookup_append] at hq
    cases hd : alookup d q with
    | some v =>
      rw [hd] at hq
      have hv : v = cw₂ := by simpa using hq
      subst hv
      exact gc.codeword q v hd
    | none =>
      rw [hd] at hq
      by_cases hqe : lo - st = q
      · simp only [alookup, if_pos hqe] at hq
        cases hq
        exact ⟨hlen, hnd⟩
      · simp only [alookup, if_neg hqe] at hq
        cases hq
  · intro i hi cwa cwb ha hb
    cases i with
    | zero =>
      rw [grid_zero] at ha
      rw [alookup_append_self _ _ _ hbotnone] at ha
      rw [show lo - st + (((0 : ℕ) : ℚ) + 1) * st = lo from by push_cast; ring] at hb
      have hlone : lo ≠ lo - st := by intro h; nlinarith
      rw [alookup_append_ne _ _ _ _ (fun h => hlone h.symm), hcw] at hb
      cases ha; cases hb
      exact hdiff
    | succ j =>
      have hj : j < m := by omega
      have hnea : lo - st ≠ lo + (j : ℚ) * st := by
        intro h
        have h₁ : (j : ℚ) * st = -st := by linarith
        have h₂ : (0 : ℚ) ≤ (j : ℚ) * st := by positivity
        nlinarith
      have hneb : lo - st ≠ lo + ((j : ℚ) + 1) * st := by
        intro h
        have h₁ : ((j : ℚ) + 1) * st = -st := by linarith
        have h₂ : (0 : ℚ) ≤ ((j : ℚ) + 1) * st := by positivity
        nlinarith
      have ha' : alookup d (lo + (j : ℚ) * st) = some cwa := by
        rw [hshift j] at ha
        rw [alookup_append_ne _ _ _ _ hnea] at ha
        exact ha
      have hb' : alookup d (lo + ((j : ℚ) + 1) * st) = some cwb := by
        rw [show lo - st + ((((j + 1 : ℕ)) : ℚ) + 1) * st = lo + ((j : ℚ) + 1) * st from by
          push_cast; ring] at hb
        rw [alookup_append_ne _ _ _ _ hneb] at hb
        exact hb
      exact gc.adjacent j hj cwa cwb ha' hb'

theorem choice_mem (l : List α) (r : Rng) (x : α) (r₁ : Rng)
    (h : choice l r = some (x, r₁)) : x ∈ l := by
  rw [choice] at h
  split at h
  · cases h
    exact List.get_mem _ _ _
  · cases h

/-- The chain-shaped post-state established by the extension loops. -/
def ChainPost (st : ℚ) (n : ℕ) (e₁ : NumericEncoder) : Prop :=
  e₁.q_step = st ∧ e₁.max_nbits = n ∧ e₁.upper_bit_index < n ∧
    ∃ (lo : ℚ) (m : ℕ), e₁.lower_q_value = some lo ∧
      e₁.upper_q_value = some (lo + m * st) ∧ GoodChain st n e₁.q_value lo m

/-- The perturbed copy of a codeword keeps its length, stays
duplicate-free and differs from the original at exactly one position. -/
theorem set_codeword_facts (cw : List ℕ) (n idx newBit : ℕ)
    (hlen : cw.length = n) (hnd : cw.Nodup) (hidx : idx < cw.length) (hnb : newBit ∉ cw) :
    (cw.set idx newBit).length = n ∧ (cw.set idx newBit).Nodup ∧
      diffCount cw (cw.set idx newBit) = 1 := by
  refine ⟨by rw [List.length_set]; exact hlen, hnd.set hnb, ?_⟩
  apply diffCount_set cw idx newBit hidx
  intro hget
  exact hnb (by
    have := List.get?_eq_get hidx
    rw [this] at hget
    have hx : cw.get ⟨idx, hidx⟩ = newBit := by simpa using hget
    rw [← hx]
    exact List.get_mem _ _ _)

/-- Characterization of a successful `upStep`. -/
theorem upStep_ok (pool : List ℕ) (qv : ℚ) (cw : List ℕ) (curr : ℚ) (e : NumericEncoder)
    (r : Rng) (cw₁ : List ℕ) (e₁ : NumericEncoder) (r₁ : Rng)
    (h : NumericEncoder.upStep pool qv cw curr e r = .ok (cw₁, e₁, r₁)) :
    ∃ newBit, newBit ∉ cw ∧ e.upper_bit_index < cw.length ∧
      cw₁ = cw.set e.upper_bit_index newBit ∧
      e₁.dimension = e.dimension ∧ e₁.q_step = e.q_step ∧ e₁.max_nbits = e.max_nbits ∧
      e₁.lower_q_value = e.lower_q_value ∧ e₁.lower_bit_index = e.lower_bit_index ∧
      e₁.upper_q_value = some curr ∧ e₁.q_value = dictSet e.q_value curr cw₁ ∧
      e₁.bits = NumericEncoder.addBits e.bits cw₁ qv ∧
      e₁.upper_bit_index =
        (if e.max_nbits ≤ e.upper_bit_index + 1 then 0 else e.upper_bit_index + 1) := by
  rw [NumericEncoder.upStep] at h
  cases hc : choice (pool.filter (fun b => decide (b ∉ cw))) r with
  | none => rw [hc] at h; cases h
  | some pr =>
    obtain ⟨newBit, r₂⟩ := pr
    simp only [hc] at h
    by_cases hidx : e.upper_bit_index < cw.length
    · rw [if_pos hidx] at h
      injection h with h'
      injection h' with ha hrest
      injection hrest with hb hr
      subst ha
      subst hb
      refine ⟨newBit, ?_, hidx, rfl, rfl, rfl, rfl, rfl, rfl, rfl, rfl, rfl, rfl⟩
      have hmem := choice_mem _ _ _ _ hc
      have := List.mem_filter.mp hmem
      simpa using this.2
    · rw [if_neg hidx] at h
      cases h

/-- The upward loop preserves the chain invariant, whether it completes,
runs out of fuel, or stops with an error (the partially mutated state is
still a chain). -/
theorem upLoop_inv (pool : List ℕ) (qv target st : ℚ) (hst : 0 < st) (n : ℕ) (hn : 0 < n)
    (lo : ℚ) :
    ∀ (fuel : ℕ) (cw : List ℕ) (m : ℕ) (curr : ℚ) (e : NumericEncoder) (r : Rng),
      curr = lo + m * st + st →
      e.q_step = st → e.max_nbits = n → e.upper_bit_index < n →
      e.lower_q_value = some lo → e.upper_q_value = some (lo + m * st) →
      GoodChain st n e.q_value lo m →
      alookup e.q_value (lo + m * st) = some cw →
      ChainPost st n (NumericEncoder.upLoop pool qv target st fuel cw curr e r).2.1 := by
  intro fuel
  induction fuel with
  | zero =>
    intro cw m curr e r _ h₁ h₂ h₃ h₄ h₅ h₆ _
    exact ⟨h₁, h₂, h₃, lo, m, h₄, h₅, h₆⟩
  | succ fuel ih =>
    intro cw m curr e r hcurr h₁ h₂ h₃ h₄ h₅ h₆ h₇
    rw [NumericEncoder.upLoop]
    by_cases hcond : curr ≤ target
    · rw [if_pos hcond]
      cases hs : NumericEncoder.upStep pool qv cw curr e r with
      | error err => exact ⟨h₁, h₂, h₃, lo, m, h₄, h₅, h₆⟩
      | ok out =>
        obtain ⟨cw₁, e₁, r₁⟩ := out
        obtain ⟨newBit, hnb, hidx, hcw₁, _, hq_step, hmax, hlow, _, hup, hqv, _, hubi⟩ :=
          upStep_ok pool qv cw curr e r cw₁ e₁ r₁ hs
        subst hcw₁
        have hnb' : newBit ∉ cw := hnb
        obtain ⟨hcwlen, hcwnd⟩ := h₆.codeword _ cw h₇
        obtain ⟨hlen₁, hnd₁, hdiff₁⟩ :=
          set_codeword_facts cw n e.upper_bit_index newBit hcwlen hcwnd hidx hnb'
        have hkey : curr = lo + ((m + 1 : ℕ) : ℚ) * st := by
          rw [hcurr]; push_cast; ring
        have htopnone : alookup e.q_value curr = none := by
          rw [hkey]; exact goodChain_lookup_top_none hst h₆
        have hset : dictSet e.q_value curr (cw.set e.upper_bit_index newBit) =
            e.q_value ++ [(curr, cw.set e.upper_bit_index newBit)] :=
          dictSet_of_lookup_none _ _ _ htopnone
        apply ih (cw.set e.upper_bit_index newBit) (m + 1) (curr + st) e₁ r₁
        · rw [hcurr]; push_cast; ring
        · rw [hq_step, h₁]
        · rw [hmax, h₂]
        · rw [hubi]
          by_cases hwrap : e.max_nbits ≤ e.upper_bit_index + 1
          · rw [if_pos hwrap]; exact hn
          · rw [if_neg hwrap]; rw [h₂] at hwrap; omega
        · rw [hlow, h₄]
        · rw [hup, hkey]
        · rw [hqv, hset, hkey]
          exact goodChain_extend_top hst h₆ cw _ h₇ hlen₁ hnd₁ hdiff₁
        · rw [hqv, hset]
          rw [show lo + ((m + 1 : ℕ) : ℚ) * st = curr from hkey.symm]
          exact alookup_append_self _ _ _ htopnone
    · rw [if_neg hcond]
      exact ⟨h₁, h₂, h₃, lo, m, h₄, h₅, h₆⟩

/-- Characterization of a successful `downStep`. -/
theorem downStep_ok (pool : List ℕ) (qv : ℚ) (cw : List ℕ) (curr : ℚ) (e : NumericEncoder)
    (r : Rng) (cw₁ : List ℕ) (e₁ : NumericEncoder) (r₁ : Rng)
    (h : NumericEncoder.downStep pool qv cw curr e r = .ok (cw₁, e₁, r₁)) :
    ∃ newBit, newBit ∉ cw ∧ e.lower_bit_index < cw.length ∧
      cw₁ = cw.set e.lower_bit_index newBit ∧
      e₁.dimension = e.dimension ∧ e₁.q_step = e.q_step ∧ e₁.max_nbits = e.max_nbits ∧
      e₁.upper_q_value = e.upper_q_value ∧ e₁.upper_bit_index = e.upper_bit_index ∧
      e₁.lower_q_value = some curr ∧ e₁.q_value = dictSet e.q_value curr cw₁ ∧
      e₁.bits = NumericEncoder.addBits e.bits cw₁ qv := by
  rw [NumericEncoder.downStep] at h
  cases hc : choice (pool.filter (fun b => decide (b ∉ cw))) r with
  | none => rw [hc] at h; cases h
  | some pr =>
    obtain ⟨newBit, r₂⟩ := pr
    simp only [hc] at h
    by_cases hidx : e.lower_bit_index < cw.length
    · rw [if_pos hidx] at h
      injection h with h'
      injection h' with ha hrest
      injection hrest with hb hr
      subst ha
      subst hb
      refine ⟨newBit, ?_, hidx, rfl, rfl, rfl, rfl, rfl, rfl, rfl, rfl, rfl⟩
      have hmem := choice_mem _ _ _ _ hc
      have := List.mem_filter.mp hmem
      simpa using this.2
    · rw [if_neg hidx] at h
      cases h

/-- The downward loop preserves the chain invariant. -/
theorem downLoop_inv (pool : List ℕ) (qv target st : ℚ) (hst : 0 < st) (n : ℕ) (hn : 0 < n) :
    ∀ (fuel : ℕ) (cw : List ℕ) (lo : ℚ) (m : ℕ) (curr : ℚ) (e : NumericEncoder) (r : Rng),
      curr = lo - st →
      e.q_step = st → e.max_nbits = n → e.upper_bit_index < n →
      e.lower_q_value = some lo → e.upper_q_value = some (lo + m * st) →
      GoodChain st n e.q_value lo m →
      alookup e.q_value lo = some cw →
      ChainPost st n (NumericEncoder.downLoop pool qv target st fuel cw curr e r).2.1 := by
  intro fuel
  induction fuel with
  | zero =>
    intro cw lo m curr e r _ h₁ h₂ h₃ h₄ h₅ h₆ _
    exact ⟨h₁, h₂, h₃, lo, m, h₄, h₅, h₆⟩
  | succ fuel ih =>
    intro cw lo m curr e r hcurr h₁ h₂ h₃ h₄ h₅ h₆ h₇
    rw [NumericEncoder.downLoop]
    by_cases hcond : target ≤ curr
    · rw [if_pos hcond]
      cases hs : NumericEncoder.downStep pool qv cw curr e r with
      | error err => exact ⟨h₁, h₂, h₃, lo, m, h₄, h₅, h₆⟩
      | ok out =>
        obtain ⟨cw₁, e₁, r₁⟩ := out
        obtain ⟨newBit, hnb, hidx, hcw₁, _, hq_step, hmax, hup, hubi, hlow, hqv, _⟩ :=
          downStep_ok pool qv cw curr e r cw₁ e₁ r₁ hs
        subst hcw₁
        obtain ⟨hcwlen, hcwnd⟩ := h₆.codeword _ cw h₇
        obtain ⟨hlen₁, hnd₁, hdiff₁⟩ :=
          set_codeword_facts cw n e.lower_bit_index newBit hcwlen hcwnd hidx hnb
        have hbotnone : alookup e.q_value curr = none := by
          rw [hcurr]; exact goodChain_lookup_bot_none hst h₆
        have hset : dictSet e.q_value curr (cw.set e.lower_bit_index newBit) =
            e.q_value ++ [(curr, cw.set e.lower_bit_index newBit)] :=
          dictSet_of_lookup_none _ _ _ hbotnone
        have hgc₁ : GoodChain st n e₁.q_value (lo - st) (m + 1) := by
          rw [hqv, hset, hcurr]
          exact goodChain_extend_bot hst h₆ cw _ h₇ hlen₁ hnd₁ (by
            rw [diffCount_comm]; exact hdiff₁)
        apply ih (cw.set e.lower_bit_index newBit) (lo - st) (m + 1) (curr - st) e₁ r₁
        · rw [hcurr]
        · rw [hq_step, h₁]
        · rw [hmax, h₂]
        · rw [hubi]; exact h₃
        · rw [hlow, hcurr]
        · rw [hup, h₅]
          have : lo + (m : ℚ) * st = lo - st + (((m + 1 : ℕ)) : ℚ) * st := by push_cast; ring
          rw [this]
        · exact hgc₁
        · rw [hqv, hset, hcurr]
          exact alookup_append_self _ _ _ (by rw [← hcurr]; exact hbotnone)
    · rw [if_neg hcond]
      exact ⟨h₁, h₂, h₃, lo, m, h₄, h₅, h₆⟩

/-- The still-cold post-state: nothing installed yet. -/
def ColdPost (st : ℚ) (n : ℕ) (e₁ : NumericEncoder) : Prop :=
  e₁.q_step = st ∧ e₁.max_nbits = n ∧ e₁.upper_bit_index < n ∧
    e₁.upper_q_value = none ∧ e₁.q_value = []

/-- The cold-start run of the upward loop (empty codebook, first install
at `lo`) leaves either a still-empty state or a proper chain. -/
theorem upLoop_cold_inv (pool : List ℕ) (qv target st : ℚ) (hst : 0 < st) (n : ℕ) (hn : 0 < n) :
    ∀ (fuel : ℕ) (cw : List ℕ) (lo : ℚ) (e : NumericEncoder) (r : Rng),
      e.q_step = st → e.max_nbits = n → e.upper_bit_index < n →
      e.upper_q_value = none → e.q_value = [] → e.lower_q_value = some lo →
      cw.length = n → cw.Nodup →
      (ColdPost st n (NumericEncoder.upLoop pool qv target st fuel cw lo e r).2.1 ∨
        ChainPost st n (NumericEncoder.upLoop pool qv target st fuel cw lo e r).2.1) := by
  intro fuel cw lo e r h₁ h₂ h₃ h₄ h₅ h₆ hlen hnd
  cases fuel with
  | zero => exact Or.inl ⟨h₁, h₂, h₃, h₄, h₅⟩
  | succ fuel =>
    rw [NumericEncoder.upLoop]
    by_cases hcond : lo ≤ target
    · rw [if_pos hcond]
      cases hs : NumericEncoder.upStep pool qv cw lo e r with
      | error err => exact Or.inl ⟨h₁, h₂, h₃, h₄, h₅⟩
      | ok out =>
        obtain ⟨cw₁, e₁, r₁⟩ := out
        obtain ⟨newBit, hnb, hidx, hcw₁, _, hq_step, hmax, hlow, _, hup, hqv, _, hubi⟩ :=
          upStep_ok pool qv cw lo e r cw₁ e₁ r₁ hs
        subst hcw₁
        obtain ⟨hlen₁, hnd₁, _⟩ :=
          set_codeword_facts cw n e.upper_bit_index newBit hlen hnd hidx hnb
        have hqv₁ : e₁.q_value = [(lo, cw.set e.upper_bit_index newBit)] := by
          rw [hqv, h₅]
          rfl
        refine Or.inr ?_
        have hkey0 : lo + ((0 : ℕ) : ℚ) * st = lo := by norm_num
        apply upLoop_inv pool qv target st hst n hn lo fuel
          (cw.set e.upper_bit_index newBit) 0 (lo + st) e₁ r₁
        · rw [hkey0]
        · rw [hq_step, h₁]
        · rw [hmax, h₂]
        · rw [hubi]
          by_cases hwrap : e.max_nbits ≤ e.upper_bit_index + 1
          · rw [if_pos hwrap]; exact hn
          · rw [if_neg hwrap]; rw [h₂] at hwrap; omega
        · rw [hlow, h₆]
        · rw [hup, hkey0]
        · rw [hqv₁]
          exact goodChain_singleton st n lo _ hlen₁ hnd₁
        · rw [hqv₁, hkey0]
          simp [alookup]
    · rw [if_neg hcond]
      exact Or.inl ⟨h₁, h₂, h₃, h₄, h₅⟩

/-- `ChainPost` and `ColdPost` each entail the state invariant, given a
positive step. -/
theorem numInv_of_chainPost {e₁ : NumericEncoder} {st : ℚ} {n : ℕ}
    (hst : 0 < st) (hn : 0 < n) (h : ChainPost st n e₁) : NumInv e₁ := by
  obtain ⟨h₁, h₂, h₃, lo, m, h₄, h₅, h₆⟩ := h
  exact ⟨by rw [h₁]; exact hst, by rw [h₂]; exact hn, by rw [h₂]; exact h₃,
    Or.inr ⟨lo, m, h₄, by rw [h₅, h₁], by rw [h₁, h₂]; exact h₆⟩⟩

theorem numInv_of_coldPost {e₁ : NumericEncoder} {st : ℚ} {n : ℕ}
    (hst : 0 < st) (hn : 0 < n) (h : ColdPost st n e₁) : NumInv e₁ := by
  obtain ⟨h₁, h₂, h₃, h₄, h₅⟩ := h
  exact ⟨by rw [h₁]; exact hst, by rw [h₂]; exact hn, by rw [h₂]; exact h₃, Or.inl ⟨h₄, h₅⟩⟩

/-- `result` never mutates the encoder. -/
theorem result_state (e : NumericEncoder) (qv : ℚ) (r : Rng) :
    (NumericEncoder.result e qv r).2.1 = e := by
  rw [NumericEncoder.result]
  cases alookup e.q_value qv <;> rfl

/-- The upward-extension block preserves the chain shape. -/
theorem extendUp_inv (e : NumericEncoder) (pool : List ℕ) (qv : ℚ) (r : Rng)
    (st : ℚ) (n : ℕ) (hst : 0 < st) (hn : 0 < n) (lo : ℚ) (m : ℕ)
    (h₁ : e.q_step = st) (h₂ : e.max_nbits = n) (h₃ : e.upper_bit_index < n)
    (h₄ : e.lower_q_value = some lo) (h₅ : e.upper_q_value = some (lo + m * st))
    (h₆ : GoodChain st n e.q_value lo m) :
    ChainPost st n (NumericEncoder.extendUp e pool qv (lo + m * st) r).2.1 := by
  subst h₁
  subst h₂
  rw [NumericEncoder.extendUp]
  by_cases hcond : qv + e.qStepRange > lo + m * e.q_step
  · rw [if_pos hcond]
    cases hl : alookup e.q_value (lo + m * e.q_step) with
    | none => exact ⟨rfl, rfl, h₃, lo, m, h₄, h₅, h₆⟩
    | some cw =>
      exact upLoop_inv pool qv (qv + e.qStepRange) e.q_step hst e.max_nbits hn lo
        (NumericEncoder.loopFuel e.q_step (lo + m * e.q_step + e.q_step) (qv + e.qStepRange))
        cw m (lo + m * e.q_step + e.q_step) e r rfl rfl rfl h₃ h₄ h₅ h₆ hl
  · rw [if_neg hcond]
    exact ⟨rfl, rfl, h₃, lo, m, h₄, h₅, h₆⟩

/-- The downward-extension block preserves the chain shape. -/
theorem extendDown_inv (e : NumericEncoder) (pool : List ℕ) (qv : ℚ) (r : Rng)
    (st : ℚ) (n : ℕ) (hst : 0 < st) (hn : 0 < n)
    (h : ChainPost st n e) :
    ChainPost st n (NumericEncoder.extendDown e pool qv r).2.1 := by
  obtain ⟨h₁, h₂, h₃, lo, m, h₄, h₅, h₆⟩ := h
  subst h₁
  subst h₂
  rw [NumericEncoder.extendDown]
  simp only [h₄]
  by_cases hcond : qv - e.qStepRange < lo
  · rw [if_pos hcond]
    cases hl : alookup e.q_value lo with
    | none => exact ⟨rfl, rfl, h₃, lo, m, h₄, h₅, h₆⟩
    | some cw =>
      exact downLoop_inv pool qv (qv - e.qStepRange) e.q_step hst e.max_nbits hn
        (NumericEncoder.loopFuel e.q_step (qv - e.qStepRange) (lo - e.q_step))
        cw lo m (lo - e.q_step) e r rfl rfl rfl h₃ h₄ h₅ h₆ hl
  · rw [if_neg hcond]
    exact ⟨rfl, rfl, h₃, lo, m, h₄, h₅, h₆⟩

/-- The cold-start block preserves the state invariant. -/
theorem coldStart_inv (e : NumericEncoder) (pool : List ℕ) (qv : ℚ) (r : Rng)
    (hInv : NumInv e) (hup : e.upper_q_value = none) (hqv : e.q_value = [])
    (hpool : pool.Nodup) :
    NumInv (NumericEncoder.coldStart e pool qv r).2.1 := by
  obtain ⟨hst, hn, hubi, _⟩ := hInv
  rw [NumericEncoder.coldStart]
  cases hs : sample pool e.max_nbits r with
  | none => exact ⟨hst, hn, hubi, Or.inl ⟨hup, hqv⟩⟩
  | some pr =>
    obtain ⟨bs, r₁⟩ := pr
    have hsize : ¬ pool.length < e.max_nbits := by
      intro hlt
      rw [sample, if_pos hlt] at hs
      cases hs
    have hbs : bs = (sampleGo e.max_nbits pool r).1 ∧ r₁ = (sampleGo e.max_nbits pool r).2 := by
      rw [sample, if_neg hsize] at hs
      injection hs with hs'
      constructor
      · rw [hs']
      · rw [hs']
    have hblen : bs.length = e.max_nbits := by
      rw [hbs.1]
      exact sampleGo_length _ _ _ (le_of_not_lt hsize)
    have hbnd : bs.Nodup := by
      rw [hbs.1]
      exact sampleGo_nodup _ _ _ hpool
    have := upLoop_cold_inv pool qv (qv + e.qStepRange) e.q_step hst e.max_nbits hn
      (NumericEncoder.loopFuel e.q_step (qv - e.qStepRange) (qv + e.qStepRange))
      bs (qv - e.qStepRange)
      { e with lower_q_value := some (qv - e.qStepRange) } r₁
      rfl rfl hubi hup hqv rfl hblen hbnd
    rcases this with hcold | hchain
    · exact numInv_of_coldPost hst hn hcold
    · exact numInv_of_chainPost hst hn hchain

/-- `encode` preserves the state invariant, on success and on failure. -/
theorem encode_inv (e : NumericEncoder) (numeric : ℚ) (population : Option Pattern) (r : Rng)
    (hInv : NumInv e) : NumInv (NumericEncoder.encode e numeric population r).2.1 := by
  obtain ⟨hst, hn, hubi, hcase⟩ := hInv
  simp only [NumericEncoder.encode]
  by_cases hguard :
      (alookup e.q_value
        (NumericEncoder.quantise numeric e.q_step + e.qStepRange)).isSome ∧
      (alookup e.q_value
        (NumericEncoder.quantise numeric e.q_step - e.qStepRange)).isSome
  · rw [if_pos hguard]
    rw [show (NumericEncoder.result e (NumericEncoder.quantise numeric e.q_step) r).2.1 = e
      from result_state e _ r]
    exact ⟨hst, hn, hubi, hcase⟩
  · rw [if_neg hguard]
    have hpool : (poolOf e.dimension population).Nodup := by
      cases population with
      | none => exact List.nodup_range e.dimension
      | some p => exact List.nodup_dedup _
    cases hupc : e.upper_q_value with
    | some upv =>
      rcases hcase with ⟨hnone, _⟩ | ⟨lo, m, h₄, h₅, h₆⟩
      · rw [hupc] at hnone; cases hnone
      · rw [hupc] at h₅
        injection h₅ with h₅'
        subst h₅'
        dsimp only
        have hchain₁ := extendUp_inv e (poolOf e.dimension population)
          (NumericEncoder.quantise numeric e.q_step) r
          e.q_step e.max_nbits hst hn lo m rfl rfl hubi h₄ hupc h₆
        cases hex : NumericEncoder.extendUp e (poolOf e.dimension population)
            (NumericEncoder.quantise numeric e.q_step) (lo + m * e.q_step) r with
        | mk oerr rest =>
          obtain ⟨e₁, r₁⟩ := rest
          rw [hex] at hchain₁
          cases oerr with
          | some err => exact numInv_of_chainPost hst hn hchain₁
          | none =>
            dsimp only
            have hchain₂ := extendDown_inv e₁ (poolOf e.dimension population)
              (NumericEncoder.quantise numeric e.q_step) r₁ e.q_step e.max_nbits hst hn hchain₁
            cases hex₂ : NumericEncoder.extendDown e₁ (poolOf e.dimension population)
                (NumericEncoder.quantise numeric e.q_step) r₁ with
            | mk oerr₂ rest₂ =>
              obtain ⟨e₂, r₂⟩ := rest₂
              rw [hex₂] at hchain₂
              cases oerr₂ with
              | some err => exact numInv_of_chainPost hst hn hchain₂
              | none =>
                dsimp only
                rw [show (NumericEncoder.result e₂
                    (NumericEncoder.quantise numeric e.q_step) r₂).2.1 = e₂
                  from result_state e₂ _ r₂]
                exact numInv_of_chainPost hst hn hchain₂
    | none =>
      rcases hcase with ⟨_, hqv⟩ | ⟨lo, m, _, h₅, _⟩
      · dsimp only
        cases hcold : NumericEncoder.coldStart e (poolOf e.dimension population)
            (NumericEncoder.quantise numeric e.q_step) r with
        | mk oerr rest =>
          obtain ⟨e₁, r₁⟩ := rest
          have := coldStart_inv e (poolOf e.dimension population)
            (NumericEncoder.quantise numeric e.q_step) r
            ⟨hst, hn, hubi, Or.inl ⟨hupc, hqv⟩⟩ hupc hqv hpool
          rw [hcold] at this
          cases oerr with
          | some err => exact this
          | none =>
            dsimp only
            rw [show (NumericEncoder.result e₁
                (NumericEncoder.quantise numeric e.q_step) r₁).2.1 = e₁
              from result_state e₁ _ r₁]
            exact this
      · rw [hupc] at h₅; cases h₅

/-- Every reachable numeric-encoder state satisfies the invariant. -/
theorem numReachable_inv (e : NumericEncoder) (h : NumReachable e) : NumInv e := by
  induction h with
  | init dimension sparsity quantise_step hst =>
    refine ⟨hst, ?_, ?_, Or.inl ⟨rfl, rfl⟩⟩
    · simp [NumericEncoder.init]
    · simp [NumericEncoder.init]
  | encode e numeric population r _ ih => exact encode_inv e numeric population r ih

/-- Walking a good chain `k` steps changes the codeword bit set by at
most `k` elements. -/
theorem goodChain_overlap {st : ℚ} {n : ℕ} {dict : List (ℚ × List ℕ)} {lo : ℚ} {m : ℕ}
    (hst : 0 < st) (gc : GoodChain st n dict lo m) :
    ∀ (k i : ℕ), i + k ≤ m → ∀ cw₁ cw₂, alookup dict (lo + i * st) = some cw₁ →
      alookup dict (lo + ((i + k : ℕ) : ℚ) * st) = some cw₂ →
      ∃ s : Finset ℕ, s.card ≤ k ∧ cw₁.toFinset ⊆ cw₂.toFinset ∪ s := by
  intro k
  induction k with
  | zero =>
    intro i _ cw₁ cw₂ h₁ h₂
    have : cw₁ = cw₂ := by
      rw [show ((i + 0 : ℕ) : ℚ) = (i : ℚ) from by norm_num] at h₂
      rw [h₁] at h₂
      exact Option.some_inj.mp h₂
    subst this
    exact ⟨∅, by simp, by simp⟩
  | succ k ih =>
    intro i hik cw₁ cw₂ h₁ h₂
    have hmid : (alookup dict (lo + ((i + k : ℕ) : ℚ) * st)).isSome :=
      (gc.mem_iff _).mpr ⟨i + k, by omega, rfl⟩
    obtain ⟨cwm, hcwm⟩ := Option.isSome_iff_exists.mp hmid
    obtain ⟨s₀, hs₀card, hs₀sub⟩ := ih i (by omega) cw₁ cwm h₁ hcwm
    have hadj : diffCount cwm cw₂ = 1 := by
      apply gc.adjacent (i + k) (by omega) cwm cw₂
      · exact_mod_cast hcwm
      · rw [show ((i + k : ℕ) : ℚ) + 1 = ((i + (k + 1) : ℕ) : ℚ) from by push_cast; ring]
        exact_mod_cast h₂
    obtain ⟨s₁, hs₁card, hs₁sub⟩ := toFinset_subset_of_diffCount cwm cw₂
    rw [hadj] at hs₁card
    refine ⟨s₀ ∪ s₁, ?_, ?_⟩
    · calc (s₀ ∪ s₁).card ≤ s₀.card + s₁.card := Finset.card_union_le _ _
        _ ≤ k + 1 := by omega
    · intro x hx
      rcases Finset.mem_union.mp (hs₀sub hx) with hx₁ | hx₁
      · rcases Finset.mem_union.mp (hs₁sub hx₁) with hx₂ | hx₂
        · exact Finset.mem_union_left _ hx₂
        · exact Finset.mem_union_right _ (Finset.mem_union_right _ hx₂)
      · exact Finset.mem_union_right _ (Finset.mem_union_left _ hx₁)

/-- The constant-zero RNG stream, used for the concrete runs below. -/
def rng0 : Rng := fun _ => 0

/-- A small concrete reachable state: dimension 4, sparsity 1/2 (hence
`max_nbits = 2`), `q_step = 1`; encoding the value 1 on the fresh
encoder builds the three levels 0, 1, 2 with codewords `[2, 1]`,
`[2, 0]`, `[1, 0]` under the constant-zero stream. -/
def exNum : NumericEncoder :=
  (NumericEncoder.encode (NumericEncoder.init 4 (1/2) 1) 1 none rng0).2.1

/-- The state `exNum` is reachable. -/
theorem exNum_reachable : NumReachable exNum :=
  NumReachable.encode _ 1 none rng0 (NumReachable.init 4 (1/2) 1 (by norm_num))

/-- C2: after any sequence of `encode` calls on a fresh `NumericEncoder`
(with positive quantization step), any two successive quantized levels
`q` and `q + q_step` present in the codebook have codewords — ordered
lists of `max_nbits` bits — that differ in exactly one position. -/
theorem numeric_adjacent_codewords_differ_in_one_position
    (e : NumericEncoder) (h : NumReachable e) (q : ℚ) (cw₁ cw₂ : List ℕ)
    (h₁ : alookup e.q_value q = some cw₁)
    (h₂ : alookup e.q_value (q + e.q_step) = some cw₂) :
    cw₁.length = e.max_nbits ∧ cw₂.length = e.max_nbits ∧ diffCount cw₁ cw₂ = 1 := by
  obtain ⟨hst, hn, _, hcase⟩ := numReachable_inv e h
  rcases hcase with ⟨_, hqv⟩ | ⟨lo, m, _, _, gc⟩
  · rw [hqv] at h₁
    simp [alookup] at h₁
  · obtain ⟨i, hi, hq⟩ := (gc.mem_iff q).mp (by rw [h₁]; rfl)
    subst hq
    obtain ⟨j, hj, hq₂⟩ := (gc.mem_iff _).mp (by rw [h₂]; rfl)
    have hstep : lo + (i : ℚ) * e.q_step + e.q_step = lo + ((i + 1 : ℕ) : ℚ) * e.q_step := by
      push_cast; ring
    have hj' : j = i + 1 := grid_inj lo e.q_step hst (by rw [← hq₂, hstep])
    subst hj'
    have him : i < m := by omega
    have h₂' : alookup e.q_value (lo + ((i + 1 : ℕ) : ℚ) * e.q_step) = some cw₂ := by
      rw [← hstep]; exact h₂
    obtain ⟨hlen₁, _⟩ := gc.codeword _ cw₁ h₁
    obtain ⟨hlen₂, _⟩ := gc.codeword _ cw₂ h₂'
    refine ⟨hlen₁, hlen₂, ?_⟩
    exact gc.adjacent i him cw₁ cw₂ h₁ (by exact_mod_cast h₂')

/-- Witness for C2 at the concrete reachable state `exNum`, levels 0
and 1. -/
theorem numeric_adjacent_codewords_differ_in_one_position_witness :
    ([2, 1] : List ℕ).length = exNum.max_nbits ∧
      ([2, 0] : List ℕ).length = exNum.max_nbits ∧
      diffCount [2, 1] [2, 0] = 1 :=
  numeric_adjacent_codewords_differ_in_one_position exNum exNum_reachable
    0 [2, 1] [2, 0] (by with_unfolding_all decide) (by with_unfolding_all decide)

/-- C1 (amended): for every reachable `NumericEncoder` and every pair of
encoded quantized levels `q` and `q + d·q_step` with `d ≤ max_nbits`,
the codewords share **at least** `max_nbits − d` bits.  The count is not
exactly `max_nbits − d` in general, because a replacement bit drawn
during a later extension step may reintroduce a bit removed earlier (see
the counterexample). -/
theorem numeric_graded_similarity_lower_bound
    (e : NumericEncoder) (h : NumReachable e) (q : ℚ) (d : ℕ) (hd : d ≤ e.max_nbits)
    (cw₁ cw₂ : List ℕ)
    (h₁ : alookup e.q_value q = some cw₁)
    (h₂ : alookup e.q_value (q + d * e.q_step) = some cw₂) :
    e.max_nbits - d ≤ (cw₁.toFinset ∩ cw₂.toFinset).card := by
  obtain ⟨hst, hn, _, hcase⟩ := numReachable_inv e h
  rcases hcase with ⟨_, hqv⟩ | ⟨lo, m, _, _, gc⟩
  · rw [hqv] at h₁
    simp [alookup] at h₁
  · obtain ⟨i, hi, hq⟩ := (gc.mem_iff q).mp (by rw [h₁]; rfl)
    subst hq
    obtain ⟨j, hj, hq₂⟩ := (gc.mem_iff _).mp (by rw [h₂]; rfl)
    have hstep : lo + (i : ℚ) * e.q_step + d * e.q_step =
        lo + ((i + d : ℕ) : ℚ) * e.q_step := by push_cast; ring
    have hj' : j = i + d := grid_inj lo e.q_step hst (by rw [← hq₂, hstep])
    subst hj'
    have h₂' : alookup e.q_value (lo + ((i + d : ℕ) : ℚ) * e.q_step) = some cw₂ := by
      rw [← hstep]; exact h₂
    obtain ⟨s, hscard, hssub⟩ :=
      goodChain_overlap hst gc d i (by omega) cw₁ cw₂ h₁ h₂'
    obtain ⟨hlen₁, hnd₁⟩ := gc.codeword _ cw₁ h₁
    have hcard₁ : cw₁.toFinset.card = e.max_nbits := by
      rw [List.toFinset_card_of_nodup hnd₁, hlen₁]
    have hsplit : cw₁.toFinset ⊆ (cw₁.toFinset ∩ cw₂.toFinset) ∪ s := by
      intro x hx
      by_cases hxb : x ∈ cw₂.toFinset
      · exact Finset.mem_union_left _ (Finset.mem_inter.mpr ⟨hx, hxb⟩)
      · rcases Finset.mem_union.mp (hssub hx) with hx₁ | hx₁
        · exact absurd hx₁ hxb
        · exact Finset.mem_union_right _ hx₁
    have := Finset.card_le_card hsplit
    have hle := le_trans this (Finset.card_union_le _ _)
    omega

/-- Witness for C1 at `exNum`, levels 0 and 1 (`d = 1`). -/
theorem numeric_graded_similarity_lower_bound_witness :
    exNum.max_nbits - 1 ≤
      ((([2, 1] : List ℕ)).toFinset ∩ (([2, 0] : List ℕ)).toFinset).card :=
  numeric_graded_similarity_lower_bound exNum exNum_reachable 0 1 (by with_unfolding_all decide)
    [2, 1] [2, 0] (by with_unfolding_all decide) (by with_unfolding_all decide)

/-- Counterexample to C1 as stated: in the reachable state `exNum`
(`max_nbits = 2`, `q_step = 1`), the levels 0 and `0 + 2·q_step` are
both encoded, `d = 2 ∈ {0, …, max_nbits}`, yet their codewords share 1
bit, not `max_nbits − d = 0`: the replacement drawn while extending from
level 1 to level 2 reintroduced bit 1, which had been removed at an
earlier step. -/
theorem numeric_graded_similarity_not_exact :
    exNum.max_nbits = 2 ∧ exNum.q_step = 1 ∧
      alookup exNum.q_value 0 = some [2, 1] ∧
      alookup exNum.q_value (0 + (2 : ℕ) * exNum.q_step) = some [1, 0] ∧
      ¬ ((([2, 1] : List ℕ).toFinset ∩ ([1, 0] : List ℕ).toFinset).card =
        exNum.max_nbits - 2) := by
  refine ⟨by with_unfolding_all decide, by with_unfolding_all decide, by with_unfolding_all decide, by with_unfolding_all decide, by with_unfolding_all decide⟩

/-! ### Claims about quantization, initial indexes, failure behavior -/

/-- C8 (amended): `encode` indexes the codebook at
`int(x / q_step) * q_step`, i.e. truncation toward zero: this equals
`floor(x / q_step) * q_step` for nonnegative inputs, but equals
`ceil(x / q_step) * q_step` for negative ones. -/
theorem numeric_quantisation_is_truncation (x st : ℚ) (hst : 0 < st) :
    (0 ≤ x → NumericEncoder.quantise x st = (⌊x / st⌋ : ℚ) * st) ∧
      (x < 0 → NumericEncoder.quantise x st = (⌈x / st⌉ : ℚ) * st) := by
  constructor
  · intro hx
    have hq : 0 ≤ x / st := div_nonneg hx (le_of_lt hst)
    rw [NumericEncoder.quantise, ratTrunc, if_pos hq]
  · intro hx
    have hq : ¬ (0 ≤ x / st) := by
      intro habs
      have := div_neg_of_neg_of_pos hx hst
      linarith
    rw [NumericEncoder.quantise, ratTrunc, if_neg hq]

/-- Witness for C8 at `x = 3/2`, `q_step = 1`. -/
theorem numeric_quantisation_is_truncation_witness :
    NumericEncoder.quantise (3/2) 1 = (⌊(3/2 : ℚ) / 1⌋ : ℚ) * 1 :=
  (numeric_quantisation_is_truncation (3/2) 1 (by norm_num)).1 (by norm_num)

/-- Counterexample to C8 as stated: at `x = -3/2`, `q_step = 1`, the
fresh encoder indexes the codebook at level `-1` (truncation), not at
`floor(-3/2) = -2`: the returned pattern is the codeword of level `-1`,
which differs from the stored codeword of level `-2`. -/
theorem numeric_quantisation_not_floor :
    NumericEncoder.quantise (-3/2) 1 = -1 ∧
      ((⌊((-3/2 : ℚ)) / 1⌋ : ℚ) * 1 = -2) ∧
      (NumericEncoder.encode (NumericEncoder.init 4 (1/2) 1) (-3/2) none rng0).1 =
        .ok [(2, 1), (0, 1)] ∧
      alookup (NumericEncoder.encode (NumericEncoder.init 4 (1/2) 1) (-3/2) none
        rng0).2.1.q_value (-1) = some [2, 0] ∧
      alookup (NumericEncoder.encode (NumericEncoder.init 4 (1/2) 1) (-3/2) none
        rng0).2.1.q_value (-2) = some [2, 1] ∧
      ¬ (([(2, 1), (0, 1)] : Pattern) = [2, 1].map (fun b => ((b : ℕ), (1 : ℚ)))) := by
  refine ⟨by with_unfolding_all decide, by with_unfolding_all decide,
    by with_unfolding_all decide, by with_unfolding_all decide,
    by with_unfolding_all decide, by with_unfolding_all decide⟩

/-- C9 (amended): a freshly constructed `NumericEncoder` has
`upper_bit_index = 0` and `lower_bit_index = 39` — the literal constant
39, independent of `max_nbits`; the two agree only when
`max_nbits = 40` (e.g. at the default dimension 2048 and sparsity 0.02). -/
theorem init_rotation_indexes (dimension : ℕ) (sparsity quantise_step : ℚ) :
    (NumericEncoder.init dimension sparsity quantise_step).upper_bit_index = 0 ∧
      (NumericEncoder.init dimension sparsity quantise_step).lower_bit_index = 39 :=
  ⟨rfl, rfl⟩

/-- Counterexample to C9 as stated: with `dimension = 100` and
`sparsity = 1/50`, `max_nbits = 2`, yet `lower_bit_index` starts at 39,
not at `max_nbits - 1 = 1`. -/
theorem init_lower_bit_index_not_max_nbits_sub_one :
    (NumericEncoder.init 100 (1/50) 1).max_nbits = 2 ∧
      (NumericEncoder.init 100 (1/50) 1).lower_bit_index = 39 ∧
      ¬ ((NumericEncoder.init 100 (1/50) 1).lower_bit_index =
        (NumericEncoder.init 100 (1/50) 1).max_nbits - 1) := by
  refine ⟨by with_unfolding_all decide, rfl, by with_unfolding_all decide⟩

/-- C5: both decoders dereference `self._bits[bit]` without a guard, so
a pattern containing a bit absent from the reverse index raises
`KeyError` instead of being silently skipped: here, fresh encoders (with
empty reverse indexes) and the pattern `{5: 1.0}`. -/
theorem decode_unknown_bit_raises :
    SymbolEncoder.decode (SymbolEncoder.init 2048 (1/50)) [(5, 1)] =
      .error EncError.keyError ∧
    NumericEncoder.decode (NumericEncoder.init 2048 (1/50) 1) [(5, 1)] =
      .error EncError.keyError := by
  refine ⟨by with_unfolding_all decide, by with_unfolding_all decide⟩

/-- C4: encode is not all-or-nothing.  Starting from the reachable state
`exNum` (levels 0, 1, 2; upper codeword `[1, 0]`), encoding 3 with the
two-bit population `{1, 3}` completes the first upward extension step
(installing level 3 with codeword `[1, 3]` and advancing
`upper_q_value`/`upper_bit_index`) and then raises
`PopulationExhausted` on the second step; the mutation of the first
step is not rolled back. -/
theorem encode_failure_leaves_partial_mutation :
    (NumericEncoder.encode exNum 3 (some [(1, 1), (3, 1)]) rng0).1 =
      .error EncError.populationExhausted ∧
    exNum.upper_q_value = some 2 ∧
    alookup exNum.q_value 3 = none ∧
    (NumericEncoder.encode exNum 3 (some [(1, 1), (3, 1)]) rng0).2.1.upper_q_value = some 3 ∧
    alookup (NumericEncoder.encode exNum 3 (some [(1, 1), (3, 1)]) rng0).2.1.q_value 3 =
      some [1, 3] ∧
    ¬ ((NumericEncoder.encode exNum 3 (some [(1, 1), (3, 1)]) rng0).2.1 = exNum) := by
  refine ⟨by with_unfolding_all decide, by with_unfolding_all decide,
    by with_unfolding_all decide, by with_unfolding_all decide,
    by with_unfolding_all decide, by with_unfolding_all decide⟩

/-! ### Claims about the ESDR -/

/-- The concrete ESDR of the C6 failing input: built from the single raw
bit 1, then bundled (no label) with an ESDR holding the raw bit 2. -/
def exEsdr : ESDR := (ESDR.ofBits [BitKey.raw 1]).bundle (ESDR.ofBits [BitKey.raw 2]) none

/-- C6: `bundle` (and `set_value`) merge bits without updating the
cached `_sum_bits`, so the cache diverges from the sum of the weights
and self-similarity is no longer 1: after bundling, `sum_bits` is still
1 while the weights sum to 2, and `similarity(self, self) = 2`. -/
theorem esdr_self_similarity_broken_by_bundle :
    exEsdr.sum_bits = 1 ∧
      (exEsdr.bits.map Prod.snd).sum = 2 ∧
      exEsdr.similarity exEsdr = 2 ∧
      ¬ (exEsdr.similarity exEsdr = 1) := by
  refine ⟨by with_unfolding_all decide, by with_unfolding_all decide,
    by with_unfolding_all decide, by with_unfolding_all decide⟩

/-- The weight a bit key carries in an ESDR, with absent bits implicitly
weighing 0 (as the data model specifies). -/
def weightOf (e : ESDR) (k : BitKey) : ℚ := (alookup e.bits k).getD 0

theorem alookup_map_keys [DecidableEq κ] (keys : List κ) (f : κ → β) (q : κ) :
    alookup (keys.map (fun k => (k, f k))) q = if q ∈ keys then some (f q) else none := by
  induction keys with
  | nil => simp [alookup]
  | cons k ks ih =>
    by_cases hk : k = q
    · subst hk
      simp [alookup]
    · simp only [List.map_cons, alookup, if_neg hk, ih, List.mem_cons]
      have : (q = k) = False := by simp [Ne.symm hk]
      simp [this]

theorem alookup_isSome_iff_mem_keys [DecidableEq κ] (d : List (κ × β)) (q : κ) :
    (alookup d q).isSome ↔ q ∈ d.map Prod.fst := by
  induction d with
  | nil => simp [alookup]
  | cons p rest ih =>
    obtain ⟨k, v⟩ := p
    by_cases hk : k = q
    · subst hk
      simp [alookup]
    · simp [alookup, hk, ih, Ne.symm hk]

/-- C7 (amended): `learn(other, 0)` preserves every bit's weight (the
stored dict may gain keys of weight 0, see the counterexample, but
weight-wise — with absent bits implicitly 0 — self is unchanged), and
`learn(other, 1)` makes self weight-wise equal to other. -/
theorem learn_endpoints_weightwise (a b : ESDR) (k : BitKey) :
    weightOf (a.learn b 0) k = weightOf a k ∧ weightOf (a.learn b 1) k = weightOf b k := by
  have hkeys : ∀ rate : ℚ, (a.learn b rate).bits =
      ((a.bits.map Prod.fst) ++
        (b.bits.map Prod.fst).filter (fun q => decide (q ∉ a.bits.map Prod.fst))).map
        (fun q => (q, match alookup a.bits q, alookup b.bits q with
          | some wa, some wb => wa * (1 - rate) + rate * wb
          | some wa, none => wa * (1 - rate)
          | none, some wb => rate * wb
          | none, none => 0)) := fun rate => rfl
  constructor
  · rw [weightOf, hkeys 0, alookup_map_keys]
    by_cases hk : k ∈ (a.bits.map Prod.fst) ++
        (b.bits.map Prod.fst).filter (fun q => decide (q ∉ a.bits.map Prod.fst))
    · rw [if_pos hk]
      cases ha : alookup a.bits k with
      | some wa => cases hb : alookup b.bits k <;> simp [weightOf, ha]
      | none =>
        cases hb : alookup b.bits k with
        | some wb => simp [weightOf, ha]
        | none => simp [weightOf, ha]
    · rw [if_neg hk]
      have hka : ¬ k ∈ a.bits.map Prod.fst := fun h => hk (List.mem_append_left _ h)
      have : alookup a.bits k = none := by
        cases hs : alookup a.bits k with
        | none => rfl
        | some v =>
          exact absurd ((alookup_isSome_iff_mem_keys a.bits k).mp (by simp [hs])) hka
      simp [weightOf, this]
  · rw [weightOf, hkeys 1, alookup_map_keys]
    by_cases hk : k ∈ (a.bits.map Prod.fst) ++
        (b.bits.map Prod.fst).filter (fun q => decide (q ∉ a.bits.map Prod.fst))
    · rw [if_pos hk]
      cases ha : alookup a.bits k with
      | some wa => cases hb : alookup b.bits k <;> simp [weightOf, *]
      | none =>
        cases hb : alookup b.bits k with
        | some wb => simp [weightOf, hb]
        | none => simp [weightOf, hb]
    · rw [if_neg hk]
      have hkb : ¬ k ∈ b.bits.map Prod.fst := by
        intro hmem
        by_cases hka : k ∈ a.bits.map Prod.fst
        · exact hk (List.mem_append_left _ hka)
        · exact hk (List.mem_append_right _ (List.mem_filter.mpr ⟨hmem, by simpa using hka⟩))
      have : alookup b.bits k = none := by
        cases hs : alookup b.bits k with
        | none => rfl
        | some v =>
          exact absurd ((alookup_isSome_iff_mem_keys b.bits k).mp (by simp [hs])) hkb
      simp [weightOf, this]

/-- Counterexample to C7 as stated: `learn(other, 0)` is not the
identity on the stored state — bits only in `other` are inserted with
weight 0.0, so the dict (and `bits()`) changes. -/
theorem learn_zero_not_identity :
    (ESDR.empty.learn (ESDR.ofBits [BitKey.raw 1]) 0).bits = [(BitKey.raw 1, 0)] ∧
      ¬ ((ESDR.empty.learn (ESDR.ofBits [BitKey.raw 1]) 0).bits = ESDR.empty.bits) := by
  refine ⟨by with_unfolding_all decide, by with_unfolding_all decide⟩

/-! ### Claims about the `set_value` pipeline -/

/-- A dict assignment only ever adds the assigned key. -/
theorem dictSet_keys [DecidableEq κ] (d : List (κ × β)) (k₀ : κ) (v : β) (q : κ)
    (hq : q ∈ (dictSet d k₀ v).map Prod.fst) : q ∈ d.map Prod.fst ∨ q = k₀ := by
  rw [dictSet] at hq
  by_cases hs : (alookup d k₀).isSome
  · rw [if_pos hs, List.map_map] at hq
    obtain ⟨p, hp, hpq⟩ := List.mem_map.mp hq
    by_cases hpk : p.1 = k₀
    · right
      rw [← hpq]
      simp [Function.comp, hpk]
    · left
      rw [← hpq]
      simp only [Function.comp, if_neg hpk]
      exact List.mem_map.mpr ⟨p, hp, rfl⟩
  · rw [if_neg hs, List.map_append] at hq
    rcases List.mem_append.mp hq with h | h
    · exact Or.inl h
    · right
      simpa using h

/-- Folding value-pattern assignments into an ESDR only adds raw keys of
the pattern. -/
theorem foldl_dictSet_raw_keys (p : Pattern) :
    ∀ (acc : List (BitKey × ℚ)) (k : BitKey),
      k ∈ (p.foldl (fun acc q => dictSet acc (BitKey.raw q.1) q.2) acc).map Prod.fst →
      k ∈ acc.map Prod.fst ∨ ∃ b ∈ p.map Prod.fst, k = BitKey.raw b := by
  induction p with
  | nil => intro acc k h; exact Or.inl h
  | cons q rest ih =>
    intro acc k h
    rw [List.foldl_cons] at h
    rcases ih _ k h with h₁ | h₁
    · rcases dictSet_keys acc (BitKey.raw q.1) q.2 k h₁ with h₂ | h₂
      · exact Or.inl h₂
      · exact Or.inr ⟨q.1, by simp, h₂⟩
    · obtain ⟨b, hb, hk⟩ := h₁
      exact Or.inr ⟨b, by simp only [List.map_cons, List.mem_cons]; exact Or.inr hb, hk⟩

/-- `mergeValue` only adds the raw keys of the merged value pattern. -/
theorem mergeValue_keys (a : ESDR) (p : Pattern) (k : BitKey)
    (hk : k ∈ (a.mergeValue p).bits.map Prod.fst) :
    k ∈ a.bits.map Prod.fst ∨ ∃ b ∈ p.map Prod.fst, k = BitKey.raw b :=
  foldl_dictSet_raw_keys p a.bits k hk

/-- A successful `sample` draws only elements of the pool. -/
theorem sample_ok_subset (pool : List α) (k : ℕ) (r : Rng) (bs : List α) (r₁ : Rng)
    (h : sample pool k r = some (bs, r₁)) : ∀ x ∈ bs, x ∈ pool := by
  rw [sample] at h
  split at h
  · cases h
  · injection h with h'
    intro x hx
    apply sampleGo_subset k pool r
    rw [show (sampleGo k pool r).1 = bs from congrArg Prod.fst h']
    exact hx

/-- The scalar-string branch of `set_value`: when the value symbol is
not yet known, every key of the resulting ESDR is an old key or the raw
image of a bit of the field-name pattern. -/
theorem setScalar_str_unknown_keys (a : ESDR) (field v : String)
    (fe se : SymbolEncoder) (ne : NumericEncoder) (r : Rng)
    (fields : List (String × String)) (outField : String)
    (hv : alookup se.symbols (Symb.str v) = none)
    (fieldPat : Pattern)
    (hf : (fe.encode (Symb.str field) none r).1 = .ok fieldPat) :
    ∀ k ∈ (ESDR.setScalar a field (FieldValue.str v) fe se ne r fields
        outField).2.2.1.bits.map Prod.fst,
      k ∈ a.bits.map Prod.fst ∨ ∃ b ∈ fieldPat.map Prod.fst, k = BitKey.raw b := by
  intro k hk
  rw [ESDR.setScalar] at hk
  cases hres : fe.encode (Symb.str field) none r with
  | mk exc rest =>
    obtain ⟨fe₁, r₁⟩ := rest
    rw [hres] at hf
    rw [hres] at hk
    cases exc with
    | error err => exact Or.inl hk
    | ok fp =>
      have hfp : fp = fieldPat := by injection hf
      subst hfp
      simp only [SymbolEncoder.encode, hv] at hk
      cases hsamp : sample (poolOf se.dimension (some fp)) se.max_nbits r₁ with
      | none =>
        rw [hsamp] at hk
        exact Or.inl hk
      | some pr =>
        obtain ⟨bs, r₂⟩ := pr
        rw [hsamp] at hk
        rcases mergeValue_keys a (bs.map (fun b => (b, (1 : ℚ)))) k hk with h₁ | h₁
        · exact Or.inl h₁
        · obtain ⟨b, hb, hkb⟩ := h₁
          have hbbs : b ∈ bs := by simpa using hb
          have hbpool : b ∈ poolOf se.dimension (some fp) :=
            sample_ok_subset _ _ _ _ _ hsamp b hbbs
          have : b ∈ fp.map Prod.fst := by
            rw [poolOf] at hbpool
            exact List.mem_dedup.mp hbpool
          exact Or.inr ⟨b, this, hkb⟩

/-- C3 (amended): for a single-field record whose string value is not
yet known to the value symbol encoder, the value bits merged into the
ESDR by `set_value` are drawn from the field's own sub-population — the
key set of `field_encoder.encode(field)`.  (For a value that is already
known the stored bits are reused regardless of the current field, so
two records carrying the same value under different field names receive
identical, fully colliding value patterns — see the counterexample.) -/
theorem set_value_unknown_value_bits_from_field_population
    (a : ESDR) (fe se : SymbolEncoder) (ne : NumericEncoder) (r : Rng) (f v : String)
    (hv : alookup se.symbols (Symb.str v) = none)
    (fieldPat : Pattern)
    (hf : (fe.encode (Symb.str f) none r).1 = .ok fieldPat) :
    ∀ k ∈ (ESDR.set_value a [(f, FieldValue.str v)] fe se ne r).esdr.bits.map Prod.fst,
      k ∈ a.bits.map Prod.fst ∨ ∃ b ∈ fieldPat.map Prod.fst, k = BitKey.raw b := by
  intro k hk
  have hesdr : (ESDR.set_value a [(f, FieldValue.str v)] fe se ne r).esdr =
      (ESDR.setScalar a f (FieldValue.str v) fe se ne r [] f).2.2.1 := by
    rw [ESDR.set_value, ESDR.setFields]
    cases hsc : ESDR.setScalar a f (FieldValue.str v) fe se ne r [] f with
    | mk exc rest =>
      obtain ⟨f₁, a₁, fe₁, se₁, ne₁, r₁⟩ := rest
      cases exc with
      | error err => rfl
      | ok u => rfl
  rw [hesdr] at hk
  exact setScalar_str_unknown_keys a f v fe se ne r [] f hv fieldPat hf k hk

/-- The RNG stream of the C3 counterexample run: the first four draws
pick index 0, later draws pick index 2. -/
def rngC3 : Rng := fun n => if n ≤ 3 then 0 else 2

/-- First record of the C3 run: `{"f1": "v"}` into an empty ESDR with
fresh encoders of dimension 4 and sparsity 1/2 (`max_nbits = 2`). -/
def runC3a : SetValueResult :=
  ESDR.set_value ESDR.empty [("f1", FieldValue.str "v")] (SymbolEncoder.init 4 (1/2))
    (SymbolEncoder.init 4 (1/2)) (NumericEncoder.init 4 (1/2) 1) rngC3

/-- Second record of the C3 run: `{"f2": "v"}` into a fresh empty ESDR
with the mutated encoders of the first run. -/
def runC3b : SetValueResult :=
  ESDR.set_value ESDR.empty [("f2", FieldValue.str "v")] runC3a.fe runC3a.se runC3a.ne
    runC3a.rng

/-- Witness for C3 at the first record of the concrete run: the value
"v" is unknown, the field pattern of "f1" is `{0, 1}`, and the bit
`raw 0` of the resulting ESDR is the raw image of one of its keys. -/
theorem set_value_unknown_value_bits_from_field_population_witness :
    BitKey.raw 0 ∈ (ESDR.empty).bits.map Prod.fst ∨
      ∃ b ∈ ([(0, 1), (1, 1)] : Pattern).map Prod.fst, BitKey.raw 0 = BitKey.raw b :=
  set_value_unknown_value_bits_from_field_population ESDR.empty
    (SymbolEncoder.init 4 (1/2)) (SymbolEncoder.init 4 (1/2))
    (NumericEncoder.init 4 (1/2) 1) rngC3 "f1" "v" (by with_unfolding_all decide)
    [(0, 1), (1, 1)] (by with_unfolding_all decide)
    (BitKey.raw 0) (by with_unfolding_all decide)

/-- Counterexample to C3 as stated: the records `{"f1": "v"}` and
`{"f2": "v"}` carry the same value under two different field names, the
two field patterns are the disjoint bit sets `{0, 1}` and `{2, 3}`, yet
both records' value patterns are `{0, 1}` — the symbol encoder caches
"v" by symbol only and ignores the second population — so the second
record's value bits are not drawn from the key set of
`field_encoder.encode("f2")` and the two patterns collide on every bit. -/
theorem set_value_same_value_under_two_fields_collides :
    runC3a.esdr.bits = [(BitKey.raw 0, 1), (BitKey.raw 1, 1)] ∧
      runC3b.esdr.bits = [(BitKey.raw 0, 1), (BitKey.raw 1, 1)] ∧
      (runC3a.fe.encode (Symb.str "f2") none runC3a.rng).1 = .ok [(2, 1), (3, 1)] ∧
      BitKey.raw 0 ∈ runC3a.esdr.bits.map Prod.fst ∧
      BitKey.raw 0 ∈ runC3b.esdr.bits.map Prod.fst ∧
      ¬ ((0 : ℕ) ∈ ([(2, 1), (3, 1)] : Pattern).map Prod.fst) := by
  refine ⟨by with_unfolding_all decide, by with_unfolding_all decide,
    by with_unfolding_all decide, by with_unfolding_all decide,
    by with_unfolding_all decide, by with_unfolding_all decide⟩

/-- C10 (amended, first part): for every `SymbolEncoder`, every symbol
not yet known to it and every population whose key set has exactly
`max_nbits` elements, `encode` succeeds and returns a pattern whose key
set equals the population's key set — the sample is forced to exhaust
the pool. -/
theorem symbol_encode_full_population (e : SymbolEncoder) (sym : Symb) (p : Pattern) (r : Rng)
    (hunk : alookup e.symbols sym = none)
    (hcard : (poolOf e.dimension (some p)).length = e.max_nbits) :
    ∃ (bs : List ℕ) (e₁ : SymbolEncoder) (r₁ : Rng),
      e.encode sym (some p) r = (.ok (bs.map (fun b => (b, (1 : ℚ)))), e₁, r₁) ∧
      bs.toFinset = (p.map Prod.fst).toFinset := by
  rcases hsg : sampleGo e.max_nbits (poolOf e.dimension (some p)) r with ⟨bs, r₁⟩
  have hsg₁ : (sampleGo e.max_nbits (poolOf e.dimension (some p)) r).1 = bs := by rw [hsg]
  have hnotlt : ¬ (poolOf e.dimension (some p)).length < e.max_nbits := by omega
  have hsamp : sample (poolOf e.dimension (some p)) e.max_nbits r = some (bs, r₁) := by
    rw [sample, if_neg hnotlt, hsg]
  refine ⟨bs,
    { e with
      symbols := e.symbols ++ [(sym, bs)]
      bits := bs.foldl (fun acc b => SymbolEncoder.addBit acc b sym) e.bits }, r₁, ?_, ?_⟩
  · simp only [SymbolEncoder.encode, hunk, hsamp]
  · have hnd : bs.Nodup := by
      rw [← hsg₁]
      apply sampleGo_nodup
      exact List.nodup_dedup _
    have hlen : bs.length = e.max_nbits := by
      rw [← hsg₁]
      exact sampleGo_length _ _ _ (le_of_eq hcard.symm)
    have hsub : bs.toFinset ⊆ (poolOf e.dimension (some p)).toFinset := by
      intro x hx
      rw [List.mem_toFinset] at hx ⊢
      rw [← hsg₁] at hx
      exact sampleGo_subset _ _ _ x hx
    have hpoolnd : (poolOf e.dimension (some p)).Nodup := List.nodup_dedup _
    have hcards : (poolOf e.dimension (some p)).toFinset.card ≤ bs.toFinset.card := by
      rw [List.toFinset_card_of_nodup hnd, List.toFinset_card_of_nodup hpoolnd, hlen, hcard]
    have hfin : bs.toFinset = (poolOf e.dimension (some p)).toFinset :=
      Finset.eq_of_subset_of_card_le hsub hcards
    rw [hfin, poolOf]
    apply Finset.ext
    intro x
    simp [List.mem_toFinset, List.mem_dedup]

/-- Witness for C10 at a fresh encoder of dimension 4 and sparsity 1/2
(`max_nbits = 2`) with the two-key population `{7, 9}`. -/
theorem symbol_encode_full_population_witness :
    ∃ (bs : List ℕ) (e₁ : SymbolEncoder) (r₁ : Rng),
      (SymbolEncoder.init 4 (1/2)).encode (Symb.str "x") (some [(7, 1), (9, 1)]) rng0 =
        (.ok (bs.map (fun b => (b, (1 : ℚ)))), e₁, r₁) ∧
      bs.toFinset = (([(7, 1), (9, 1)] : Pattern).map Prod.fst).toFinset :=
  symbol_encode_full_population (SymbolEncoder.init 4 (1/2)) (Symb.str "x")
    [(7, 1), (9, 1)] rng0 (by with_unfolding_all decide) (by with_unfolding_all decide)

/-- A symbol-encoder state at the default parameters (dimension 2048,
sparsity 0.02, `max_nbits` 40) in which the field names "f1" and "f2"
have already been assigned the bit sets `{0, …, 39}` and `{40, …, 79}`
— the state reached after encoding both names (or restored from the
persistence port). -/
def feC10 : SymbolEncoder :=
  { dimension := 2048
    max_nbits := 40
    symbols := [(Symb.str "f1", List.range 40), (Symb.str "f2", (List.range 40).map (· + 40))]
    bits := ((List.range 40).map (fun b => (b, [Symb.str "f1"]))) ++
      ((List.range 40).map (fun b => (b + 40, [Symb.str "f2"]))) }

/-- A value symbol-encoder state at the default parameters in which "v"
was first encoded inside the population of field "f1", receiving the
bit set `{0, …, 39}`. -/
def seC10 : SymbolEncoder :=
  { dimension := 2048
    max_nbits := 40
    symbols := [(Symb.str "v", List.range 40)]
    bits := (List.range 40).map (fun b => (b, [Symb.str "v"])) }

/-- The C10 counterexample run at the default parameters: the record
`{"f2": "v"}` with a value already known to the symbol encoder. -/
def runC10 : SetValueResult :=
  ESDR.set_value ESDR.empty [("f2", FieldValue.str "v")] feC10 seC10
    (NumericEncoder.init 2048 (1/50) 1) rng0

set_option maxRecDepth 40000 in
/-- Counterexample to C10 as stated: at the default parameters, the
value pattern produced inside `set_value` is *not* always identical, as
a bit set, to its field-name pattern — a value already known to the
symbol encoder reuses its stored bits and ignores the current field's
population.  Here the field pattern of "f2" is `{40, …, 79}` while the
value pattern merged into the ESDR is `{0, …, 39}`. -/
theorem set_value_value_pattern_differs_from_field_pattern :
    (feC10.encode (Symb.str "f2") none rng0).1 =
      .ok (((List.range 40).map (· + 40)).map (fun b => (b, (1 : ℚ)))) ∧
      runC10.esdr.bits.map Prod.fst = (List.range 40).map BitKey.raw ∧
      ¬ (runC10.esdr.bits.map Prod.fst =
        ((List.range 40).map (· + 40)).map BitKey.raw) := by
  refine ⟨by with_unfolding_all decide, by with_unfolding_all decide,
    by with_unfolding_all decide⟩

end Samdb
